import Mathlib

/-!
# akniga-scraper: the `cryptoutil` package

A shallow embedding of `cryptoutil/hasher.go` and `cryptoutil/decrypter.go`,
and of `formatSecondsToHMS` of `main.go`.

* A Go `[]byte` and a Go `string` are both a finite sequence of bytes, so both
  are `Bytes`; the conversions `[]byte(s)` and `string(b)` are the identity.
* A Go `int` is an `Int` in the 64-bit range; `len(x)` is the list length.
  The sum `keyLen + ivLen` of the key derivations wraps around at 64 bits
  (`wrap64`), as Go's `int` addition does.
* A Go function that returns `(v, error)` or may panic returns
  `Except Failure v`: `Failure.err` is a returned `error` value,
  `Failure.panic` a run-time panic.
* The primitives of the Go standard library that the package calls (MD5, the
  AES block cipher, base64, `encoding/json`) are the fields of `Primitives`.
  CBC chaining, hex and `strings.ReplaceAll` are written out.
-/

namespace Cryptoutil

/-! ## Bytes and failures -/

/-- One byte. -/
abbrev Byte := Fin 256

/-- A Go `[]byte` or `string`. -/
abbrev Bytes := List Byte

/-- Go's conversion `byte(n)` of an `int`: the low eight bits. -/
def byte (n : Int) : Byte := ⟨(n % 256).toNat, by omega⟩

/-- The bytes of an ASCII string literal. -/
def ascii (s : String) : Bytes := s.toList.map fun c => byte c.toNat

/-- The errors of `pkcs7Unpad`. -/
inductive PadError where
  /-- The text `pkcs7: data is empty`. -/
  | empty
  /-- The text `pkcs7: invalid padding length`. -/
  | length
  /-- The text `pkcs7: invalid padding bytes`. -/
  | bytes
  deriving DecidableEq, Repr

/-- The `error` values the package returns, one per `return ..., err` site. -/
inductive Err where
  /-- The error of `json.Unmarshal`. -/
  | unmarshal
  /-- The error of `json.Marshal`. -/
  | marshal
  /-- The error of `base64.StdEncoding.DecodeString`. -/
  | base64
  /-- The error of `hex.DecodeString` on the `iv` field. -/
  | hexIV
  /-- The text `invalid IV length` of `DecodeURL`. -/
  | ivLength
  /-- The error of `hex.DecodeString` on the `s` field. -/
  | hexSalt
  /-- The text `derived bytes length ... is less than required key length`. -/
  | deriveKey
  /-- The `aes.KeySizeError` of `aes.NewCipher`. -/
  | keySize
  /-- The text `ciphertext too short`. -/
  | tooShort
  /-- The text `ciphertext is not a multiple of the block size`. -/
  | notBlockMultiple
  /-- The text `failed to unpad data`, wrapping the error of `pkcs7Unpad`. -/
  | unpad (e : PadError)
  /-- The text `decryption resulted in an empty string`. -/
  | emptyResult
  /-- The error of `rand.Read`. -/
  | random
  /-- The text `decryption failed` of `GetHres`. -/
  | decryptionFailed
  deriving DecidableEq, Repr

/-- The run-time panics the package can reach. -/
inductive Panic where
  /-- A slice expression out of range. -/
  | sliceBounds
  /-- The text `integer divide by zero`. -/
  | divideByZero
  /-- The text `makeslice: len out of range`. -/
  | makeSlice
  /-- The text `cipher.NewCBCEncrypter: IV length must equal block size`
  (and the same for the decrypter). -/
  | ivBlockSize
  /-- The text `crypto/cipher: input not full blocks`. -/
  | notFullBlocks
  deriving DecidableEq, Repr

/-- How a call fails: it returns an `error`, or it panics. -/
inductive Failure where
  | err (e : Err)
  | panic (p : Panic)
  deriving DecidableEq, Repr

/-! ## PKCS7 padding (`hasher.go`, `decrypter.go`) -/

/-- Source `PKCS7Pad` (hasher.go:42).  Go's `%` truncates towards zero and
panics on a zero divisor; `make` panics on a negative length. -/
def PKCS7Pad (data : Bytes) (blockSize : Int) : Except Failure Bytes :=
  if blockSize = 0 then .error (.panic .divideByZero)
  else
    let padding : Int := blockSize - Int.tmod (data.length : Int) blockSize
    if padding < 0 then .error (.panic .makeSlice)
    else .ok (data ++ List.replicate padding.toNat (byte padding))

/-- Source `PKCS7Unpad` (hasher.go:51): the lenient unpadding, with no error
result. -/
def PKCS7Unpad (data : Bytes) : Bytes :=
  if data.length = 0 then data
  else
    let padding : Nat := (data.getD (data.length - 1) 0).val
    if padding > data.length then data
    else data.take (data.length - padding)

/-- Source `pkcs7Unpad` (decrypter.go:123): the strict unpadding.  The loop
over `i < paddingLen` visits every byte of `pad`, which has `paddingLen`
bytes. -/
def pkcs7Unpad (data : Bytes) : Except PadError Bytes :=
  let length := data.length
  if length = 0 then .error .empty
  else
    let paddingLen : Nat := (data.getD (length - 1) 0).val
    if paddingLen > length ∨ paddingLen > 16 ∨ paddingLen = 0 then .error .length
    else
      let pad := data.drop (length - paddingLen)
      if pad.any (fun b => b != byte paddingLen) then .error .bytes
      else .ok (data.take (length - paddingLen))

/-! ## The wire envelope and the library primitives -/

/-- Source `CipherParams` (hasher.go:16): the JSON envelope; an absent field
is the empty string. -/
structure CipherParams where
  /-- Field `ct`: the base64 text of the ciphertext. -/
  CT : Bytes
  /-- Field `iv`: the hex text of the IV, or empty. -/
  IV : Bytes
  /-- Field `s`: the hex text of the salt, or empty. -/
  S : Bytes
  deriving DecidableEq, Repr

/-- The functions of the Go standard library that the package calls and that
are not written out here.  Sizes that the library fixes by type
(`md5.Size`, `aes.BlockSize`) are part of the structure. -/
structure Primitives where
  /-- The digest `md5` of everything written to a hasher. -/
  md5 : Bytes → Bytes
  /-- A digest has `md5.Size = 16` bytes. -/
  md5_size : ∀ m, (md5 m).length = 16
  /-- The AES block encryption `Block.Encrypt` under a key. -/
  aesEncrypt : Bytes → Bytes → Bytes
  /-- An encrypted block has `aes.BlockSize = 16` bytes. -/
  aesEncrypt_size : ∀ key b, (aesEncrypt key b).length = 16
  /-- The AES block decryption `Block.Decrypt` under a key. -/
  aesDecrypt : Bytes → Bytes → Bytes
  /-- A decrypted block has `aes.BlockSize = 16` bytes. -/
  aesDecrypt_size : ∀ key b, (aesDecrypt key b).length = 16
  /-- The encoder `base64.StdEncoding.EncodeToString`. -/
  base64Encode : Bytes → Bytes
  /-- The decoder `base64.StdEncoding.DecodeString`; `none` is an error. -/
  base64Decode : Bytes → Option Bytes
  /-- The call `json.Marshal` on a `CipherParams`; `none` is an error. -/
  marshalParams : CipherParams → Option Bytes
  /-- The call `json.Unmarshal` into a `CipherParams`; `none` is an error. -/
  unmarshalParams : Bytes → Option CipherParams
  /-- The values held by an `interface{}` that `encoding/json` handles. -/
  Value : Type
  /-- The call `json.Marshal` on an `interface{}`; `none` is an error. -/
  marshalValue : Value → Option Bytes
  /-- The call `json.Unmarshal` into an `interface{}`; `none` is an error. -/
  unmarshalValue : Bytes → Option Value

/-- A library result `(v, err)` as a result of the package: `none` becomes the
error `e`. -/
def orErr {α : Type} (o : Option α) (e : Err) : Except Failure α :=
  match o with
  | some v => .ok v
  | none => .error (.err e)

/-! ## `encoding/hex` -/

/-- The table `hextable`, the text `0123456789abcdef`, at index `n`. -/
def hexDigit (n : Nat) : Byte :=
  if n < 10 then byte (48 + n : Nat) else byte (87 + n : Nat)

/-- The function `hex.EncodeToString`: two digits for each byte, high first. -/
def hexEncode : Bytes → Bytes
  | [] => []
  | v :: rest => hexDigit (v.val / 16) :: hexDigit (v.val % 16) :: hexEncode rest

/-- The table `reverseHexTable`: the value of a hex digit of either case. -/
def fromHexChar (c : Byte) : Option Nat :=
  if 48 ≤ c.val ∧ c.val ≤ 57 then some (c.val - 48)
  else if 97 ≤ c.val ∧ c.val ≤ 102 then some (c.val - 97 + 10)
  else if 65 ≤ c.val ∧ c.val ≤ 70 then some (c.val - 65 + 10)
  else none

/-- The function `hex.DecodeString`; `none` is `InvalidByteError` or
`ErrLength`. -/
def hexDecode : Bytes → Option Bytes
  | [] => some []
  | [_] => none
  | p :: q :: rest =>
    match fromHexChar p, fromHexChar q with
    | some a, some b =>
      match hexDecode rest with
      | some tl => some (byte ((a * 16 + b : Nat) : Int) :: tl)
      | none => none
    | _, _ => none

/-! ## `strings.ReplaceAll` -/

/-- The scan of `strings.ReplaceAll` for a non-empty `old`: `skip` counts the
bytes of a matched occurrence still to pass over. -/
def replaceFrom (old new : Bytes) : Nat → Bytes → Bytes
  | _, [] => []
  | skip + 1, _ :: rest => replaceFrom old new skip rest
  | 0, c :: rest =>
    if old.isPrefixOf (c :: rest) then new ++ replaceFrom old new (old.length - 1) rest
    else c :: replaceFrom old new 0 rest

/-- The function `strings.ReplaceAll(s, old, new)` for a non-empty `old`:
every non-overlapping occurrence of `old`, from the left, becomes `new`. -/
def ReplaceAll (s old new : Bytes) : Bytes := replaceFrom old new 0 s

/-! ## `crypto/aes` and `crypto/cipher` -/

/-- The function `subtle.XORBytes` on two blocks. -/
def xorBytes (a b : Bytes) : Bytes := List.zipWith (fun x y => x ^^^ y) a b

/-- The function `aes.NewCipher`: the key must have 16, 24 or 32 bytes. -/
def NewCipher (key : Bytes) : Except Failure Bytes :=
  if key.length = 16 ∨ key.length = 24 ∨ key.length = 32 then .ok key
  else .error (.err .keySize)

/-- The functions `cipher.NewCBCEncrypter` and `cipher.NewCBCDecrypter`: they
panic unless the IV has the block size. -/
def NewCBC (iv : Bytes) : Except Failure Bytes :=
  if iv.length ≠ 16 then .error (.panic .ivBlockSize) else .ok iv

/-- The loop of the CBC encrypter's `CryptBlocks` over `n` blocks: each block
is xored with the previous ciphertext block (first the IV) and encrypted. -/
def cbcEncryptBlocks (std : Primitives) (key : Bytes) : Nat → Bytes → Bytes → Bytes
  | 0, _, _ => []
  | n + 1, iv, src =>
    let c := std.aesEncrypt key (xorBytes (src.take 16) iv)
    c ++ cbcEncryptBlocks std key n c (src.drop 16)

/-- The loop of the CBC decrypter's `CryptBlocks` over `n` blocks: each block
is decrypted and xored with the previous ciphertext block (first the IV). -/
def cbcDecryptBlocks (std : Primitives) (key : Bytes) : Nat → Bytes → Bytes → Bytes
  | 0, _, _ => []
  | n + 1, iv, src =>
    xorBytes (std.aesDecrypt key (src.take 16)) iv
      ++ cbcDecryptBlocks std key n (src.take 16) (src.drop 16)

/-- The encrypter's `CryptBlocks(dst, src)` with `len(dst) = len(src)`: it
panics unless `src` is whole blocks. -/
def encryptBlocks (std : Primitives) (key iv src : Bytes) : Except Failure Bytes :=
  if src.length % 16 ≠ 0 then .error (.panic .notFullBlocks)
  else .ok (cbcEncryptBlocks std key (src.length / 16) iv src)

/-- The decrypter's `CryptBlocks(dst, src)` with `len(dst) = len(src)`: it
panics unless `src` is whole blocks. -/
def decryptBlocks (std : Primitives) (key iv src : Bytes) : Except Failure Bytes :=
  if src.length % 16 ≠ 0 then .error (.panic .notFullBlocks)
  else .ok (cbcDecryptBlocks std key (src.length / 16) iv src)

/-! ## Key derivation -/

/-- Go's `int` addition on a 64-bit platform: the exact sum of two `int`
values, brought back into the range from `-2^63` to `2^63 - 1`. -/
def wrap64 (n : Int) : Int :=
  (n + 9223372036854775808) % 18446744073709551616 - 9223372036854775808

/-- The loop of `EVPBytesToKey` (hasher.go:26): `h` is what has been written
to the fresh hasher of one round. -/
def evpLoop (std : Primitives) (password salt : Bytes) (total : Int)
    (derived block : Bytes) : Bytes :=
  if _hlt : (derived.length : Int) < total then
    let h : Bytes := []
    let h := if block.length > 0 then h ++ block else h
    let h := h ++ password
    let h := if salt.length > 0 then h ++ salt else h
    evpLoop std password salt total (derived ++ std.md5 h) (std.md5 h)
  else derived
termination_by (total - derived.length).toNat
decreasing_by
  simp only [List.length_append, std.md5_size]
  omega

/-- Source `EVPBytesToKey` (hasher.go:22).  The sum `keyLen+ivLen` wraps.  A
slice expression panics on a negative bound; when the sum is below `keyLen`
(a negative `ivLen`, or a sum that wrapped), `derived[:keyLen]` is beyond
the capacity or `derived[keyLen : keyLen+ivLen]` has its upper bound below
its lower bound, so one of the two panics.  Otherwise `derived` holds at
least `keyLen+ivLen` bytes. -/
def EVPBytesToKey (std : Primitives) (password salt : Bytes) (keyLen ivLen : Int) :
    Except Failure (Bytes × Bytes) :=
  let total := wrap64 (keyLen + ivLen)
  let derived := evpLoop std password salt total [] []
  if keyLen < 0 then .error (.panic .sliceBounds)
  else if total < keyLen then .error (.panic .sliceBounds)
  else .ok (derived.take keyLen.toNat, (derived.take total.toNat).drop keyLen.toNat)

/-- The loop of `evpBytesToKey` (decrypter.go:95): `hasher` is what has been
written to the one hasher since its last `Reset`.  `Write` on a hash never
returns an error. -/
def evpLoopReset (std : Primitives) (password salt : Bytes) (totalLen : Int)
    (derivedBytes block hasher : Bytes) : Bytes :=
  if _hlt : (derivedBytes.length : Int) < totalLen then
    let hasher := if block.length > 0 then hasher ++ block else hasher
    let hasher := hasher ++ password
    let hasher := hasher ++ salt
    evpLoopReset std password salt totalLen (derivedBytes ++ std.md5 hasher) (std.md5 hasher) []
  else derivedBytes
termination_by (totalLen - derivedBytes.length).toNat
decreasing_by
  simp only [List.length_append, std.md5_size]
  omega

/-- Source `evpBytesToKey` (decrypter.go:87): the private derivation, which
returns the key only.  The sum `keyLen + ivLen` wraps. -/
def evpBytesToKey (std : Primitives) (password salt : Bytes) (keyLen ivLen : Int) :
    Except Failure Bytes :=
  let totalLen := wrap64 (keyLen + ivLen)
  let derivedBytes := evpLoopReset std password salt totalLen [] [] []
  if (derivedBytes.length : Int) < keyLen then .error (.err .deriveKey)
  else if keyLen < 0 then .error (.panic .sliceBounds)
  else .ok (derivedBytes.take keyLen.toNat)

/-! ## The obfuscation password (`hasher.go`) -/

/-- Source `Base` (hasher.go:62): the text of the fourteen runes. -/
def Base : Bytes :=
  [0x79, 0x6d, 0x58, 0x45, 0x4b, 0x7a, 0x76, 0x55, 0x6b, 0x75, 0x6f, 0x35, 0x47, 0x30]

/-- The decimal digits of `n`, in exactly `width` places, zero-padded. -/
def fixedDigits : Nat → Nat → Bytes
  | 0, _ => []
  | width + 1, n => fixedDigits width (n / 10) ++ [byte ((48 + n % 10 : Nat) : Int)]

/-- The decimal text of a natural number. -/
def decimalText (n : Nat) : Bytes := (Nat.toDigits 10 n).map fun c => byte (c.toNat : Int)

/-- The call `strconv.FormatFloat(x, 'f', prec, 64)` for the non-negative
float64 `x = mant / 2 ^ exp2`: the exact value of `x` rounded to `prec`
decimals, ties to even, as integer part, point and `prec` decimals. -/
def formatFloatF (mant exp2 prec : Nat) : Bytes :=
  let scaled := mant * 10 ^ prec
  let q := scaled / 2 ^ exp2
  let r := scaled % 2 ^ exp2
  let n := if 2 * r > 2 ^ exp2 ∨ (2 * r = 2 ^ exp2 ∧ q % 2 = 1) then q + 1 else q
  decimalText (n / 10 ^ prec) ++ [0x2e] ++ fixedDigits prec (n % 10 ^ prec)

/-- The constant `math.Pi` as a float64 is `7074237752028440 / 2 ^ 51` (bits
`0x400921FB54442D18`); the text is `FormatFloat(math.Pi, 'f', 15, 64)`. -/
def piText : Bytes := formatFloatF 7074237752028440 51 15

/-- The map `evenDigitMap` of `Assets`; a missing key gives the zero rune. -/
def evenDigitMap (digit : Nat) : Byte :=
  if digit = 0 then 0x41
  else if digit = 2 then 0x42
  else if digit = 4 then 0x43
  else if digit = 6 then 0x44
  else if digit = 8 then 0x45
  else 0

/-- The body of the loop of `Assets` (hasher.go:83) for one character; the
text ranged over is ASCII, so its runes are its bytes. -/
def assetsStep (result : Bytes) (char : Byte) : Bytes :=
  if char.val ≥ 0x30 ∧ char.val ≤ 0x39 then
    let digit := char.val - 0x30
    if digit % 2 = 0 then result ++ [evenDigitMap digit]
    else result ++ [char]
  else result ++ [char]

/-- Source `Assets` (hasher.go:67), on the text `piStr` that `FormatFloat`
returned. -/
def assetsOf (piStr : Bytes) : Bytes :=
  let piStr := if piStr.length > 18 then piStr.take 18 else piStr
  piStr.foldl assetsStep Base

/-- Source `Assets` (hasher.go:67). -/
def Assets : Bytes := assetsOf piText

/-! ## The obfuscation channel (`hasher.go`) -/

/-- Source `EncryptAES` (hasher.go:99).  The argument `rand` is what
`rand.Read` did with the 8-byte buffer: the salt it filled in, or `none` for
its error. -/
def EncryptAES (std : Primitives) (rand : Option Bytes) (plaintext password : Bytes) :
    Except Failure Bytes := do
  let salt ← orErr rand .random
  let (key, iv) ← EVPBytesToKey std password salt 32 16
  let block ← NewCipher key
  let paddedPlaintext ← PKCS7Pad plaintext 16
  let mode ← NewCBC iv
  let ciphertext ← encryptBlocks std block mode paddedPlaintext
  let params : CipherParams :=
    { CT := std.base64Encode ciphertext, IV := [], S := hexEncode salt }
  let jsonBytes ← orErr (std.marshalParams params) .marshal
  pure jsonBytes

/-- Source `DecryptAES` (hasher.go:130). -/
def DecryptAES (std : Primitives) (encrypted password : Bytes) : Except Failure Bytes := do
  let params ← orErr (std.unmarshalParams encrypted) .unmarshal
  let ciphertext ← orErr (std.base64Decode params.CT) .base64
  let salt ← orErr (hexDecode params.S) .hexSalt
  let (key, iv) ← EVPBytesToKey std password salt 32 16
  let iv ← if params.IV ≠ [] then orErr (hexDecode params.IV) .hexIV else pure iv
  let block ← NewCipher key
  let mode ← NewCBC iv
  let plaintext ← decryptBlocks std block mode ciphertext
  pure (PKCS7Unpad plaintext)

/-- Source `StartTransition` (hasher.go:167). -/
def StartTransition (std : Primitives) (rand : Option Bytes) (securityKey : std.Value) :
    Except Failure Bytes := do
  let jsonData ← orErr (std.marshalValue securityKey) .marshal
  EncryptAES std rand jsonData Assets

/-- Source `GetHres` (hasher.go:176): every returned error becomes the one
error `decryption failed`; a panic is not recovered. -/
def GetHres (std : Primitives) (encrypted : Bytes) : Except Failure std.Value :=
  match DecryptAES std encrypted Assets with
  | .ok decrypted =>
    match std.unmarshalValue decrypted with
    | some result => .ok result
    | none => .error (.err .decryptionFailed)
  | .error (.err _) => .error (.err .decryptionFailed)
  | .error (.panic p) => .error (.panic p)

/-! ## `DecodeURL` (`decrypter.go`) -/

/-- Source constant `password` (decrypter.go:18). -/
def password : Bytes := ascii "EKxtcg46V"

/-- Source constant `keyLen` (decrypter.go:19). -/
def keyLen : Int := 32

/-- Source constant `ivLen` (decrypter.go:20). -/
def ivLen : Int := 16

/-- Source `DecodeURL` (decrypter.go:24). -/
def DecodeURL (std : Primitives) (inputJSON : Bytes) : Except Failure Bytes := do
  let data ← orErr (std.unmarshalParams inputJSON) .unmarshal
  let ctBase64 := ReplaceAll data.CT (ascii "\\/") (ascii "/")
  let ciphertext ← orErr (std.base64Decode ctBase64) .base64
  let iv ← orErr (hexDecode data.IV) .hexIV
  if iv.length ≠ 16 then throw (.err .ivLength)
  let salt ← orErr (hexDecode data.S) .hexSalt
  let key ← evpBytesToKey std password salt keyLen ivLen
  let block ← NewCipher key
  if ciphertext.length < 16 then throw (.err .tooShort)
  if ciphertext.length % 16 ≠ 0 then throw (.err .notBlockMultiple)
  let mode ← NewCBC iv
  let decryptedPadded ← decryptBlocks std block mode ciphertext
  let decryptedData ←
    match pkcs7Unpad decryptedPadded with
    | .ok d => pure d
    | .error e => throw (.err (.unpad e))
  let finalURL := decryptedData
  let finalURL := ReplaceAll finalURL (ascii "\\") []
  let finalURL := ReplaceAll finalURL (ascii "\"") []
  if finalURL = [] then throw (.err .emptyResult)
  pure finalURL

/-! ## The stages of `DecodeURL` -/

/-- Every step of `DecodeURL` before the clean-up succeeds on `input`, with
these values: the parsed envelope, the decoded ciphertext, IV and salt, the
derived key, the CBC decryption and its strict unpadding `plain`. -/
def DecodeStages (std : Primitives) (input : Bytes) (data : CipherParams)
    (ciphertext iv salt key decryptedPadded plain : Bytes) : Prop :=
  std.unmarshalParams input = some data ∧
  std.base64Decode (ReplaceAll data.CT (ascii "\\/") (ascii "/")) = some ciphertext ∧
  hexDecode data.IV = some iv ∧ iv.length = 16 ∧
  hexDecode data.S = some salt ∧
  evpBytesToKey std password salt keyLen ivLen = .ok key ∧
  decryptBlocks std key iv ciphertext = .ok decryptedPadded ∧
  16 ≤ ciphertext.length ∧
  pkcs7Unpad decryptedPadded = .ok plain

/-! ## The derivation as the specification words it -/

/-- The blocks of the specification's derivation, from zero:
`b(1) = MD5(password || salt)` and `b(n+1) = MD5(b(n) || password || salt)`. -/
def specBlock (std : Primitives) (password salt : Bytes) : Nat → Bytes
  | 0 => std.md5 (password ++ salt)
  | n + 1 => std.md5 (specBlock std password salt n ++ password ++ salt)

/-- The accumulator `O = b(1) || ... || b(n)` of the specification. -/
def specStream (std : Primitives) (password salt : Bytes) : Nat → Bytes
  | 0 => []
  | n + 1 => specStream std password salt n ++ specBlock std password salt n

/-- The block fed back into round `m` of the derivation: none at first, then
the previous block. -/
def specLast (std : Primitives) (password salt : Bytes) : Nat → Bytes
  | 0 => []
  | m + 1 => specBlock std password salt m

/-- The substitution of the specification for the password: an even digit
becomes its letter, every other character is kept. -/
def specSubstitute (c : Byte) : Byte :=
  if c = 0x30 then 0x41
  else if c = 0x32 then 0x42
  else if c = 0x34 then 0x43
  else if c = 0x36 then 0x44
  else if c = 0x38 then 0x45
  else c

/-- A text with each slash written as the two characters backslash, slash. -/
def escapeSlashes : Bytes → Bytes
  | [] => []
  | c :: rest =>
    if c = 0x2f then 0x5c :: 0x2f :: escapeSlashes rest else c :: escapeSlashes rest

/-! ## Laws of the library primitives -/

/-- AES-256 block decryption inverts block encryption under the same key. -/
def AesInverts (std : Primitives) : Prop :=
  ∀ key b : Bytes, key.length = 32 → b.length = 16 →
    std.aesDecrypt key (std.aesEncrypt key b) = b

/-- Base64 decoding inverts base64 encoding. -/
def Base64Inverts (std : Primitives) : Prop :=
  ∀ x : Bytes, std.base64Decode (std.base64Encode x) = some x

/-- A base64 text holds no backslash. -/
def Base64Plain (std : Primitives) : Prop :=
  ∀ x : Bytes, (0x5c : Byte) ∉ std.base64Encode x

/-- What `json.Marshal` writes for an envelope of a base64 text and a hex
text, `json.Unmarshal` reads back as the same envelope. -/
def EnvelopeInverts (std : Primitives) : Prop :=
  ∀ ct salt : Bytes, ∃ text : Bytes,
    std.marshalParams { CT := std.base64Encode ct, IV := [], S := hexEncode salt } = some text ∧
    std.unmarshalParams text =
      some { CT := std.base64Encode ct, IV := [], S := hexEncode salt }

/-- A text that base64 decoding accepts holds no backslash. -/
def Base64Alphabet (std : Primitives) : Prop :=
  ∀ b x : Bytes, std.base64Decode b = some x → (0x5c : Byte) ∉ b

/-- What `json.Marshal` writes for a value, `json.Unmarshal` reads into an
`interface{}` without error. -/
def ValueDecodes (std : Primitives) : Prop :=
  ∀ (v : std.Value) (json : Bytes), std.marshalValue v = some json →
    ∃ v2 : std.Value, std.unmarshalValue json = some v2

/-- The primitives `std` with another block cipher in place of AES. -/
def withBlockCipher (std : Primitives) (enc dec : Bytes → Bytes → Bytes)
    (henc : ∀ key b, (enc key b).length = 16) (hdec : ∀ key b, (dec key b).length = 16) :
    Primitives :=
  { std with aesEncrypt := enc, aesEncrypt_size := henc,
             aesDecrypt := dec, aesDecrypt_size := hdec }

/-! ## A small instance of the primitives

An instance on which the package can be evaluated: a checksum for the digest,
a keyed byte permutation for the block cipher, hex for base64 and a tagged
field list for JSON. -/

/-- A 16-byte checksum of the message. -/
def sampleMd5 (m : Bytes) : Bytes :=
  (List.range 16).map fun i => byte ((m.foldl (fun acc b => acc + b.val) 0 + i : Nat) : Int)

/-- A block cipher on 16-byte blocks: xor with the first key byte, reversed. -/
def sampleEncrypt (key b : Bytes) : Bytes :=
  if b.length = 16 then (b.map fun x => x ^^^ key.headD 0).reverse
  else List.replicate 16 0

/-- The inverse of `sampleEncrypt`. -/
def sampleDecrypt (key b : Bytes) : Bytes :=
  if b.length = 16 then b.reverse.map fun x => x ^^^ key.headD 0
  else List.replicate 16 0

/-- One field written as tagged bytes, closed by a zero tag. -/
def sampleField : Bytes → Bytes
  | [] => [0]
  | b :: rest => 1 :: b :: sampleField rest

/-- Reads one field and returns it with the rest of the text. -/
def sampleParseField : Bytes → Option (Bytes × Bytes)
  | [] => none
  | t :: rest =>
    if t = 0 then some ([], rest)
    else
      match rest with
      | [] => none
      | b :: rest2 =>
        match sampleParseField rest2 with
        | some (f, r) => some (b :: f, r)
        | none => none

/-- An envelope written as its three fields. -/
def sampleMarshal (p : CipherParams) : Option Bytes :=
  some (sampleField p.CT ++ sampleField p.IV ++ sampleField p.S)

/-- Reads an envelope of three fields and nothing after them. -/
def sampleUnmarshal (text : Bytes) : Option CipherParams :=
  match sampleParseField text with
  | none => none
  | some (ct, r1) =>
    match sampleParseField r1 with
    | none => none
    | some (iv, r2) =>
      match sampleParseField r2 with
      | some (s, []) => some { CT := ct, IV := iv, S := s }
      | _ => none

/-- The small instance of the primitives. -/
def sampleStd : Primitives where
  md5 := sampleMd5
  md5_size := by intro m; simp [sampleMd5]
  aesEncrypt := sampleEncrypt
  aesEncrypt_size := by
    intro key b
    unfold sampleEncrypt
    split <;> simp [*]
  aesDecrypt := sampleDecrypt
  aesDecrypt_size := by
    intro key b
    unfold sampleDecrypt
    split <;> simp [*]
  base64Encode := hexEncode
  base64Decode := hexDecode
  marshalParams := sampleMarshal
  unmarshalParams := sampleUnmarshal
  Value := Bytes
  marshalValue := fun v => some v
  unmarshalValue := fun text => some text

/-! ## A sample envelope for `DecodeURL` -/

/-- The salt with hex text `0102030405060708`. -/
def sampleSalt : Bytes := [1, 2, 3, 4, 5, 6, 7, 8]

/-- A 16-byte IV. -/
def sampleIV : Bytes := [16, 1, 2, 3, 4, 5, 6, 7, 8, 9, 10, 11, 12, 13, 14, 15]

/-- The plaintext of the end-to-end scenario. -/
def sampleURL : Bytes := ascii "https://example.com/playlist.m3u8"

/-- The key that the fixed password and `sampleSalt` give on `sampleStd`. -/
def sampleKey : Bytes :=
  specBlock sampleStd password sampleSalt 0 ++ specBlock sampleStd password sampleSalt 1

/-- The CBC encryption of the padded `sampleURL` under `sampleKey` and
`sampleIV`. -/
def sampleCiphertext : Bytes :=
  cbcEncryptBlocks sampleStd sampleKey 3 sampleIV
    (sampleURL ++ List.replicate 15 (15 : Byte))

/-- The envelope text of the end-to-end scenario on `sampleStd`. -/
def sampleEnvelope : Bytes :=
  sampleField (hexEncode sampleCiphertext) ++ sampleField (hexEncode sampleIV)
    ++ sampleField (hexEncode sampleSalt)

/-! ## Sample envelopes for `DecryptAES` -/

/-- A password for the sample envelopes. -/
def samplePassword : Bytes := ascii "pw"

/-- The plaintext `secret` with its ten bytes of padding. -/
def samplePadded : Bytes := ascii "secret" ++ List.replicate 10 (10 : Byte)

/-- The key that `samplePassword` and `sampleSalt` give on `sampleStd`. -/
def sampleChannelKey : Bytes :=
  specBlock sampleStd samplePassword sampleSalt 0 ++
    specBlock sampleStd samplePassword sampleSalt 1

/-- The IV that `samplePassword` and `sampleSalt` give on `sampleStd`. -/
def sampleChannelIV : Bytes := specBlock sampleStd samplePassword sampleSalt 2

/-- The one-block ciphertext that `EncryptAES` computes for `secret`. -/
def sampleValidCiphertext : Bytes :=
  cbcEncryptBlocks sampleStd sampleChannelKey 1 sampleChannelIV samplePadded

/-- Flips bits of the first byte. -/
def flipFirst : Bytes → Bytes
  | [] => []
  | b :: rest => (b ^^^ 0x0a) :: rest

/-- The valid ciphertext with its first byte changed. -/
def sampleFlippedCiphertext : Bytes := flipFirst sampleValidCiphertext

/-- What the flipped ciphertext decrypts to: the last byte is zero. -/
def sampleFlippedPlain : Bytes := ascii "secret" ++ List.replicate 9 (10 : Byte) ++ [0]

/-- The envelope text, without `iv` field, of a ciphertext and a salt on
`sampleStd`. -/
def channelEnvelope (ct salt : Bytes) : Bytes :=
  sampleField (hexEncode ct) ++ sampleField [] ++ sampleField (hexEncode salt)

/-! ## Sample envelopes with escaped and with empty content -/

/-- A URL as a peer escapes it: quoted, each slash behind a backslash. -/
def sampleEscapedURL : Bytes := ascii "\"https:\\/\\/a.b\\/c\""

/-- A plaintext with the padding that `PKCS7Pad` gives it for block size 16. -/
def samplePad (p : Bytes) : Bytes :=
  p ++ List.replicate (16 - p.length % 16) (byte ((16 - p.length % 16 : Nat) : Int))

/-- The CBC encryption of the padded plaintext under `sampleKey` and
`sampleIV`. -/
def sampleEncryptURL (p : Bytes) : Bytes :=
  cbcEncryptBlocks sampleStd sampleKey ((samplePad p).length / 16) sampleIV (samplePad p)

/-- The envelope text on `sampleStd` of a plaintext under `sampleKey` and
`sampleIV`, with the salt `sampleSalt`. -/
def urlEnvelope (p : Bytes) : Bytes :=
  sampleField (hexEncode (sampleEncryptURL p)) ++ sampleField (hexEncode sampleIV)
    ++ sampleField (hexEncode sampleSalt)

/-- An envelope text on `sampleStd` with the given `iv` text, the ciphertext
of `sampleEnvelope` and the salt `sampleSalt`. -/
def ivEnvelope (ivText : Bytes) : Bytes :=
  sampleField (hexEncode sampleCiphertext) ++ sampleField ivText
    ++ sampleField (hexEncode sampleSalt)

/-! ## Sample envelopes with a given ciphertext -/

/-- The envelope text on `sampleStd` of the ciphertext bytes `ct`, with the IV
`sampleIV` and the salt `sampleSalt`. -/
def ctEnvelope (ct : Bytes) : Bytes :=
  sampleField (hexEncode ct) ++ sampleField (hexEncode sampleIV)
    ++ sampleField (hexEncode sampleSalt)

/-! ## Sample envelopes for `GetHres` -/

/-- The envelope text on `sampleStd` of a ciphertext, an `iv` text and a
salt. -/
def fieldEnvelope (ct ivText salt : Bytes) : Bytes :=
  sampleField (hexEncode ct) ++ sampleField ivText ++ sampleField (hexEncode salt)

/-- The one-block ciphertext that `EncryptAES` computes for `secret` under the
password `Assets` and the salt `sampleSalt`. -/
def hresCiphertext : Bytes :=
  cbcEncryptBlocks sampleStd
    (specBlock sampleStd Assets sampleSalt 0 ++ specBlock sampleStd Assets sampleSalt 1) 1
    (specBlock sampleStd Assets sampleSalt 2) samplePadded

/-! ## A small instance whose base64 texts may hold slashes -/

/-- The small instance with a base64 decoder that skips slashes. -/
def slashStd : Primitives :=
  { sampleStd with base64Decode := fun b => hexDecode (b.filter fun c => c != (0x2f : Byte)) }

/-- A text with slashes that `slashStd` decodes to 20 bytes. -/
def slashText : Bytes := ascii "01/02/" ++ hexEncode (List.replicate 18 7)

/-- The envelope text with the given `ct` text, the IV `sampleIV` and the salt
`sampleSalt`. -/
def textEnvelope (ctText : Bytes) : Bytes :=
  sampleField ctText ++ sampleField (hexEncode sampleIV) ++ sampleField (hexEncode sampleSalt)

end Cryptoutil

namespace Main

open Cryptoutil

/-! ## `formatSecondsToHMS` (`main.go`) -/

/-- The digit loop of `fmt` for an unsigned value: the last digit is written
while at least ten remain, then the first. -/
def fmtDigits (u : Nat) : Bytes :=
  if _h : u ≥ 10 then fmtDigits (u / 10) ++ [byte ((48 + u % 10 : Nat) : Int)]
  else [byte ((48 + u : Nat) : Int)]
termination_by u
decreasing_by omega

/-- The verb `%02d` of `fmt.Sprintf` on an integer: the digits of the
magnitude, zeros in front up to the width 2, of which a minus sign takes one
place. -/
def fmt02d (n : Int) : Bytes :=
  let negative := n < 0
  let u := n.natAbs
  let prec := if negative then 1 else 2
  let digits := fmtDigits u
  let padded := List.replicate (prec - digits.length) (0x30 : Byte) ++ digits
  if negative then 0x2d :: padded else padded

/-- Source `formatSecondsToHMS` (main.go:40).  Go's `/` and `%` on `int64`
truncate towards zero; no operation here leaves the 64-bit range. -/
def formatSecondsToHMS (totalSeconds : Int) : Bytes :=
  let totalSeconds := if totalSeconds < 0 then 0 else totalSeconds
  let hours := Int.tdiv totalSeconds 3600
  let minutes := Int.tdiv (Int.tmod totalSeconds 3600) 60
  let seconds := Int.tmod totalSeconds 60
  fmt02d hours ++ ascii ":" ++ fmt02d minutes ++ ascii ":" ++ fmt02d seconds

/-- The number that a text of decimal digits stands for. -/
def decimalValue (s : Bytes) : Nat := s.foldl (fun acc c => 10 * acc + (c.val - 48)) 0

end Main

namespace Cryptoutil

/-! ## Padding lemmas -/

theorem byte_val_of_lt (n : Nat) (h : n < 256) : (byte (n : Int)).val = n := by
  simp only [byte]
  omega

theorem PKCS7Pad_sixteen (x : Bytes) :
    PKCS7Pad x 16 =
      .ok (x ++ List.replicate (16 - x.length % 16) (byte ((16 - x.length % 16 : Nat) : Int))) := by
  have hmod : Int.tmod (x.length : Int) 16 = ((x.length % 16 : Nat) : Int) := by
    rw [Int.tmod_eq_emod (by omega) (by omega)]
    omega
  have hlt : x.length % 16 < 16 := Nat.mod_lt _ (by decide)
  have hpad : (16 : Int) - ((x.length % 16 : Nat) : Int) = ((16 - x.length % 16 : Nat) : Int) := by
    omega
  unfold PKCS7Pad
  simp only [hmod, hpad]
  rw [if_neg (by decide), if_neg (by omega)]
  simp

theorem getD_last_of_getLast? (data : Bytes) (last : Byte)
    (h : data.getLast? = some last) : data.getD (data.length - 1) 0 = last := by
  rw [List.getLast?_eq_getElem?] at h
  simp [List.getD_eq_getElem?_getD, h]

theorem getLast?_append_replicate (x : Bytes) (p : Nat) (b : Byte) (hp : 1 ≤ p) :
    (x ++ List.replicate p b).getLast? = some b := by
  rw [List.getLast?_append, List.getLast?_replicate, if_neg (by omega)]
  rfl

/-- The lenient unpadding removes a pad of `p` bytes of value `p`, `1 ≤ p ≤ 255`. -/
theorem PKCS7Unpad_append_replicate (x : Bytes) (p : Nat) (h1 : 1 ≤ p) (h2 : p < 256) :
    PKCS7Unpad (x ++ List.replicate p (byte (p : Int))) = x := by
  have hlast := getD_last_of_getLast? _ _ (getLast?_append_replicate x p (byte (p : Int)) h1)
  have hlen : (x ++ List.replicate p (byte (p : Int))).length = x.length + p := by simp
  have hsub : x.length + p - p = x.length := by omega
  unfold PKCS7Unpad
  simp only [hlast]
  simp only [hlen, byte_val_of_lt p h2, hsub]
  rw [if_neg (by omega), if_neg (by omega), List.take_left]

/-- The strict unpadding removes a pad of `p` bytes of value `p`, `1 ≤ p ≤ 16`. -/
theorem pkcs7Unpad_append_replicate (x : Bytes) (p : Nat) (h1 : 1 ≤ p) (h2 : p ≤ 16) :
    pkcs7Unpad (x ++ List.replicate p (byte (p : Int))) = .ok x := by
  have hlast := getD_last_of_getLast? _ _ (getLast?_append_replicate x p (byte (p : Int)) h1)
  have hlen : (x ++ List.replicate p (byte (p : Int))).length = x.length + p := by simp
  have hsub : x.length + p - p = x.length := by omega
  unfold pkcs7Unpad
  simp only [hlast]
  simp only [hlen, byte_val_of_lt p (by omega : p < 256), hsub]
  rw [if_neg (by omega), if_neg (by omega), List.drop_left, List.take_left, if_neg]
  simp

/-- Padding to 16 and both unpaddings, as one shared fact. -/
theorem padded_unpad_both (x : Bytes) :
    ∃ padded : Bytes, PKCS7Pad x 16 = .ok padded ∧
      PKCS7Unpad padded = x ∧ pkcs7Unpad padded = .ok x := by
  have hlt : x.length % 16 < 16 := Nat.mod_lt _ (by decide)
  exact ⟨_, PKCS7Pad_sixteen x,
    PKCS7Unpad_append_replicate x _ (by omega) (by omega),
    pkcs7Unpad_append_replicate x _ (by omega) (by omega)⟩

theorem padded_length_mod (x padded : Bytes) (h : PKCS7Pad x 16 = .ok padded) :
    padded.length % 16 = 0 := by
  have hlt : x.length % 16 < 16 := Nat.mod_lt _ (by decide)
  rw [PKCS7Pad_sixteen] at h
  cases h
  simp only [List.length_append, List.length_replicate]
  omega

/-! ## Claims on padding -/

/-- C7: `PKCS7Pad(x, 16)` is `x` followed by `p` bytes of value `p`, where
`p = 16 - len(x) mod 16` lies in `1..16`; the length of the result is a
positive multiple of 16 and exceeds `len(x)`; when `len(x)` is a multiple of
16 a whole block of sixteen bytes of value 16 is appended. -/
theorem PKCS7Pad_shape (x : Bytes) :
    ∃ (p : Nat) (padded : Bytes),
      p = 16 - x.length % 16 ∧ 1 ≤ p ∧ p ≤ 16 ∧
      PKCS7Pad x 16 = .ok padded ∧
      padded = x ++ List.replicate p (byte (p : Int)) ∧ (byte (p : Int)).val = p ∧
      padded.length % 16 = 0 ∧ 0 < padded.length ∧ x.length < padded.length ∧
      (x.length % 16 = 0 → padded = x ++ List.replicate 16 (16 : Byte)) := by
  have hlt : x.length % 16 < 16 := Nat.mod_lt _ (by decide)
  refine ⟨16 - x.length % 16, _, rfl, by omega, by omega, PKCS7Pad_sixteen x, rfl,
    byte_val_of_lt _ (by omega), ?_, ?_, ?_, ?_⟩
  · simp only [List.length_append, List.length_replicate]
    omega
  · simp only [List.length_append, List.length_replicate]
    omega
  · simp only [List.length_append, List.length_replicate]
    omega
  · intro h
    rw [h]
    rfl

/-- C4: unpadding undoes padding to 16: for every `x`, the empty one
included, `PKCS7Pad(x, 16)` returns a `padded` with `PKCS7Unpad(padded) = x`,
and the strict `pkcs7Unpad(padded)` succeeds with `x`. -/
theorem unpad_PKCS7Pad (x : Bytes) :
    ∃ padded : Bytes, PKCS7Pad x 16 = .ok padded ∧
      PKCS7Unpad padded = x ∧ pkcs7Unpad padded = .ok x := by
  have hlt : x.length % 16 < 16 := Nat.mod_lt _ (by decide)
  exact ⟨_, PKCS7Pad_sixteen x,
    PKCS7Unpad_append_replicate x _ (by omega) (by omega),
    pkcs7Unpad_append_replicate x _ (by omega) (by omega)⟩

/-- C5: the strict unpadding fails exactly on invalid padding.  On empty data
it returns an error.  On data whose last byte is `last`, with `p` its value,
it returns an error if and only if `p = 0`, or `p > 16`, or `p > len(data)`,
or one of the last `p` bytes differs from `p`; otherwise it returns `data`
without its last `p` bytes. -/
theorem pkcs7Unpad_fails_iff (data : Bytes) (last : Byte)
    (hlast : data.getLast? = some last) :
    pkcs7Unpad [] = .error .empty ∧
    ((∃ e, pkcs7Unpad data = .error e) ↔
      (last.val = 0 ∨ last.val > 16 ∨ last.val > data.length ∨
        ∃ b ∈ data.drop (data.length - last.val), b.val ≠ last.val)) ∧
    (¬ (last.val = 0 ∨ last.val > 16 ∨ last.val > data.length ∨
        ∃ b ∈ data.drop (data.length - last.val), b.val ≠ last.val) →
      pkcs7Unpad data = .ok (data.take (data.length - last.val))) := by
  have hne : data.length ≠ 0 := by
    intro h0
    rw [List.length_eq_zero] at h0
    simp [h0] at hlast
  have hget := getD_last_of_getLast? data last hlast
  have hb : ∀ b : Byte, (b != byte (last.val : Int)) = true ↔ b.val ≠ last.val := by
    intro b
    have hv : byte (last.val : Int) = last := Fin.ext (byte_val_of_lt _ last.isLt)
    rw [hv, bne_iff_ne, Ne, Ne, Fin.ext_iff]
  refine ⟨rfl, ?_, ?_⟩
  · unfold pkcs7Unpad
    simp only [hget]
    rw [if_neg hne]
    by_cases hlen : last.val > data.length ∨ last.val > 16 ∨ last.val = 0
    · rw [if_pos hlen]
      constructor
      · intro _
        rcases hlen with h | h | h
        · exact Or.inr (Or.inr (Or.inl h))
        · exact Or.inr (Or.inl h)
        · exact Or.inl h
      · intro _
        exact ⟨_, rfl⟩
    · rw [if_neg hlen]
      by_cases hany : (data.drop (data.length - last.val)).any
          (fun b => b != byte (last.val : Int)) = true
      · rw [if_pos hany]
        constructor
        · intro _
          obtain ⟨b, hmem, hbne⟩ := List.any_eq_true.mp hany
          exact Or.inr (Or.inr (Or.inr ⟨b, hmem, (hb b).mp hbne⟩))
        · intro _
          exact ⟨_, rfl⟩
      · rw [if_neg hany]
        constructor
        · rintro ⟨e, he⟩
          cases he
        · rintro (h | h | h | ⟨b, hmem, hbne⟩)
          · exact absurd (Or.inr (Or.inr h)) hlen
          · exact absurd (Or.inr (Or.inl h)) hlen
          · exact absurd (Or.inl h) hlen
          · exact absurd (List.any_eq_true.mpr ⟨b, hmem, (hb b).mpr hbne⟩) hany
  · intro hgood
    unfold pkcs7Unpad
    simp only [hget]
    rw [if_neg hne, if_neg, if_neg]
    · intro hany
      obtain ⟨b, hmem, hbne⟩ := List.any_eq_true.mp hany
      exact hgood (Or.inr (Or.inr (Or.inr ⟨b, hmem, (hb b).mp hbne⟩)))
    · rintro (h | h | h)
      · exact hgood (Or.inr (Or.inr (Or.inl h)))
      · exact hgood (Or.inr (Or.inl h))
      · exact hgood (Or.inl h)

/-- Witness for C5 at `data = [5, 2, 2]`: the last byte is 2 and the strict
unpadding returns `[5]`. -/
theorem pkcs7Unpad_fails_iff_witness :
    ([5, 2, 2] : Bytes).getLast? = some 2 ∧ pkcs7Unpad [5, 2, 2] = .ok [5] :=
  ⟨rfl, (pkcs7Unpad_fails_iff [5, 2, 2] 2 rfl).2.2 (by decide)⟩

/-! ## Key derivation lemmas -/

theorem wrap64_of_range (n : Int) (h1 : -9223372036854775808 ≤ n)
    (h2 : n < 9223372036854775808) : wrap64 n = n := by
  unfold wrap64
  omega

theorem hashInput_eq (block password salt : Bytes) :
    (if salt.length > 0 then
        (if block.length > 0 then ([] : Bytes) ++ block else []) ++ password ++ salt
      else (if block.length > 0 then ([] : Bytes) ++ block else []) ++ password) =
      block ++ password ++ salt := by
  cases block <;> cases salt <;> simp

theorem evpLoop_step (std : Primitives) (password salt : Bytes) (total : Int)
    (derived block : Bytes) (h : (derived.length : Int) < total) :
    evpLoop std password salt total derived block =
      evpLoop std password salt total (derived ++ std.md5 (block ++ password ++ salt))
        (std.md5 (block ++ password ++ salt)) := by
  rw [evpLoop, dif_pos h]
  simp only [hashInput_eq]

theorem evpLoop_done (std : Primitives) (password salt : Bytes) (total : Int)
    (derived block : Bytes) (h : ¬ (derived.length : Int) < total) :
    evpLoop std password salt total derived block = derived := by
  rw [evpLoop, dif_neg h]

theorem specBlock_length (std : Primitives) (password salt : Bytes) (n : Nat) :
    (specBlock std password salt n).length = 16 := by
  cases n <;> simp [specBlock, std.md5_size]

theorem specStream_length (std : Primitives) (password salt : Bytes) (n : Nat) :
    (specStream std password salt n).length = 16 * n := by
  induction n with
  | zero => rfl
  | succ n ih =>
    simp only [specStream, List.length_append, ih, specBlock_length]
    omega

theorem specBlock_eq (std : Primitives) (password salt : Bytes) (m : Nat) :
    specBlock std password salt m =
      std.md5 (specLast std password salt m ++ password ++ salt) := by
  cases m <;> simp [specBlock, specLast]

/-- From the state after `m` rounds the loop of `EVPBytesToKey` stops after the
least number `n` of rounds that gives `total` bytes, with `b(1) .. b(n)`. -/
theorem evpLoop_specStream (std : Primitives) (password salt : Bytes) (total : Int) :
    ∀ (d m : Nat), (total - (16 * m : Nat)).toNat ≤ d →
      ∃ n : Nat, m ≤ n ∧
        evpLoop std password salt total (specStream std password salt m)
          (specLast std password salt m) = specStream std password salt n ∧
        total ≤ (16 * n : Nat) ∧ ∀ j : Nat, m ≤ j → j < n → ((16 * j : Nat) : Int) < total := by
  intro d
  induction d with
  | zero =>
    intro m hm
    refine ⟨m, le_refl m, ?_, by omega, fun j h1 h2 => by omega⟩
    apply evpLoop_done
    rw [specStream_length]
    omega
  | succ d ih =>
    intro m hm
    by_cases hlt : ((16 * m : Nat) : Int) < total
    · obtain ⟨n, hn, hrun, htot, hmin⟩ := ih (m + 1) (by omega)
      refine ⟨n, by omega, ?_, htot, ?_⟩
      · rw [evpLoop_step _ _ _ _ _ _ (by rw [specStream_length]; exact hlt), ← specBlock_eq]
        exact hrun
      · intro j h1 h2
        by_cases hj : j = m
        · rw [hj]
          exact hlt
        · exact hmin j (by omega) h2
    · refine ⟨m, le_refl m, ?_, by omega, fun j h1 h2 => by omega⟩
      apply evpLoop_done
      rw [specStream_length]
      exact hlt

/-! ## Lemmas on hex, xor and CBC -/

theorem fromHexChar_hexDigit : ∀ n : Fin 16, fromHexChar (hexDigit n.val) = some n.val := by
  decide

theorem hexDecode_hexEncode (x : Bytes) : hexDecode (hexEncode x) = some x := by
  induction x with
  | nil => rfl
  | cons v rest ih =>
    have hhi := fromHexChar_hexDigit ⟨v.val / 16, by omega⟩
    have hlo := fromHexChar_hexDigit ⟨v.val % 16, by omega⟩
    have hv : byte ((v.val / 16 * 16 + v.val % 16 : Nat) : Int) = v := by
      apply Fin.ext
      rw [byte_val_of_lt _ (by omega)]
      omega
    simp only [hexEncode, hexDecode, hhi, hlo, ih, hv]

theorem hexDigit_ne_backslash : ∀ n : Fin 16, hexDigit n.val ≠ (0x5c : Byte) := by
  decide

theorem not_mem_hexEncode (x : Bytes) : (0x5c : Byte) ∉ hexEncode x := by
  induction x with
  | nil => simp [hexEncode]
  | cons v rest ih =>
    have hhi := hexDigit_ne_backslash ⟨v.val / 16, by omega⟩
    have hlo := hexDigit_ne_backslash ⟨v.val % 16, by omega⟩
    simp only [hexEncode, List.mem_cons, not_or]
    exact ⟨fun h => hhi h.symm, fun h => hlo h.symm, ih⟩

theorem hexDecode_length : ∀ (n : Nat) (s out : Bytes), s.length ≤ n →
    hexDecode s = some out → s.length = 2 * out.length := by
  intro n
  induction n with
  | zero =>
    intro s out hn h
    have : s = [] := List.length_eq_zero.mp (by omega)
    subst this
    simp only [hexDecode, Option.some.injEq] at h
    subst h
    rfl
  | succ n ih =>
    intro s out hn h
    match s, h with
    | [], h =>
      simp only [hexDecode, Option.some.injEq] at h
      subst h
      rfl
    | [_], h => simp [hexDecode] at h
    | p :: q :: rest, h =>
      simp only [hexDecode] at h
      split at h
      · split at h
        · simp only [Option.some.injEq] at h
          subst h
          rename_i tl htl
          have := ih rest tl (by simp only [List.length_cons] at hn; omega) htl
          simp only [List.length_cons]
          omega
        · simp at h
      · simp at h

theorem byte_xor_cancel (a b : Byte) : (a ^^^ b) ^^^ b = a := by
  apply Fin.ext
  show ((a.val ^^^ b.val) % 256 ^^^ b.val) % 256 = a.val
  have h : a.val ^^^ b.val < 256 := Nat.xor_lt_two_pow (n := 8) a.isLt b.isLt
  rw [Nat.mod_eq_of_lt h, Nat.xor_assoc, Nat.xor_self, Nat.xor_zero, Nat.mod_eq_of_lt a.isLt]

theorem xorBytes_length (a b : Bytes) (h : a.length = b.length) :
    (xorBytes a b).length = a.length := by
  simp [xorBytes, h]

theorem xorBytes_cancel : ∀ (a b : Bytes), a.length = b.length →
    xorBytes (xorBytes a b) b = a
  | [], [], _ => rfl
  | [], _ :: _, h => by simp at h
  | _ :: _, [], h => by simp at h
  | x :: a, y :: b, h => by
    have ih := xorBytes_cancel a b (by simpa using h)
    simp only [xorBytes, List.zipWith_cons_cons, byte_xor_cancel] at ih ⊢
    rw [ih]

/-- CBC decryption undoes CBC encryption of `n` whole blocks under a 32-byte
key and a 16-byte IV, when the block cipher inverts. -/
theorem cbcDecryptBlocks_cbcEncryptBlocks (std : Primitives) (hAes : AesInverts std)
    (key : Bytes) (hkey : key.length = 32) :
    ∀ (n : Nat) (iv src : Bytes), iv.length = 16 → src.length = 16 * n →
      cbcDecryptBlocks std key n iv (cbcEncryptBlocks std key n iv src) = src := by
  intro n
  induction n with
  | zero =>
    intro iv src _ hsrc
    have : src = [] := List.length_eq_zero.mp (by omega)
    subst this
    rfl
  | succ n ih =>
    intro iv src hiv hsrc
    have htake : (src.take 16).length = 16 := by
      rw [List.length_take]
      omega
    have hx : (xorBytes (src.take 16) iv).length = 16 := by
      rw [xorBytes_length _ _ (by omega), htake]
    have hc := std.aesEncrypt_size key (xorBytes (src.take 16) iv)
    simp only [cbcEncryptBlocks, cbcDecryptBlocks]
    rw [List.take_left' hc, List.drop_left' hc, hAes key _ hkey hx,
      xorBytes_cancel _ _ (by omega),
      ih _ (src.drop 16) hc (by rw [List.length_drop]; omega), List.take_append_drop]

theorem cbcEncryptBlocks_length (std : Primitives) (key : Bytes) :
    ∀ (n : Nat) (iv src : Bytes), (cbcEncryptBlocks std key n iv src).length = 16 * n := by
  intro n
  induction n with
  | zero => intro iv src; rfl
  | succ n ih =>
    intro iv src
    simp only [cbcEncryptBlocks, List.length_append, ih, std.aesEncrypt_size]
    omega

/-! ## Lemmas on the two derivations at the sizes the package uses -/

/-- The private loop computes what the public loop computes: resetting one
hasher is taking a fresh one, and writing an empty salt writes nothing. -/
theorem evpLoopReset_eq_evpLoop (std : Primitives) (password salt : Bytes) (total : Int) :
    ∀ (d : Nat) (derived block : Bytes), (total - derived.length).toNat ≤ d →
      evpLoopReset std password salt total derived block [] =
        evpLoop std password salt total derived block := by
  intro d
  induction d with
  | zero =>
    intro derived block hd
    rw [evpLoopReset, evpLoop, dif_neg (by omega), dif_neg (by omega)]
  | succ d ih =>
    intro derived block hd
    by_cases hlt : (derived.length : Int) < total
    · have hin : (if block.length > 0 then ([] : Bytes) ++ block else []) ++ password ++ salt =
          block ++ password ++ salt := by
        cases block <;> simp
      rw [evpLoop_step _ _ _ _ _ _ hlt, evpLoopReset, dif_pos hlt]
      simp only [hin]
      apply ih
      simp only [List.length_append, std.md5_size]
      omega
    · rw [evpLoopReset, evpLoop, dif_neg hlt, dif_neg hlt]

/-- For 48 bytes the loop of `EVPBytesToKey` runs three rounds. -/
theorem evpLoop_48 (std : Primitives) (password salt : Bytes) :
    evpLoop std password salt 48 [] [] = specStream std password salt 3 := by
  obtain ⟨n, -, hrun, htot, hmin⟩ := evpLoop_specStream std password salt 48 _ 0 (le_refl _)
  have hn : n = 3 := by
    have h2 := hmin (n - 1) (Nat.zero_le _)
    omega
  rw [hn] at hrun
  exact hrun

theorem specStream_three (std : Primitives) (password salt : Bytes) :
    specStream std password salt 3 =
      (specBlock std password salt 0 ++ specBlock std password salt 1) ++
        specBlock std password salt 2 := by
  simp [specStream]

/-- The public derivation at 32 and 16: the key is `b(1) || b(2)`, the IV is
`b(3)`. -/
theorem EVPBytesToKey_32_16 (std : Primitives) (password salt : Bytes) :
    EVPBytesToKey std password salt 32 16 =
      .ok (specBlock std password salt 0 ++ specBlock std password salt 1,
        specBlock std password salt 2) := by
  have hlen : (specBlock std password salt 0 ++ specBlock std password salt 1).length = 32 := by
    simp [specBlock_length]
  have hw : wrap64 ((32 : Int) + 16) = 48 := by decide
  have h48 : (48 : Int).toNat = 48 := by decide
  have h32 : (32 : Int).toNat = 32 := by decide
  unfold EVPBytesToKey
  simp only [hw]
  rw [if_neg (by decide), if_neg (by decide), h48, h32, evpLoop_48, specStream_three]
  rw [List.take_left' hlen, List.take_of_length_le (by simp [specBlock_length]),
    List.drop_left' hlen]

/-- The private derivation at 32 and 16: the key is `b(1) || b(2)`. -/
theorem evpBytesToKey_32_16 (std : Primitives) (password salt : Bytes) :
    evpBytesToKey std password salt 32 16 =
      .ok (specBlock std password salt 0 ++ specBlock std password salt 1) := by
  have hlen : (specBlock std password salt 0 ++ specBlock std password salt 1).length = 32 := by
    simp [specBlock_length]
  have h32 : (32 : Int).toNat = 32 := by decide
  have hw : wrap64 ((32 : Int) + 16) = 48 := by decide
  unfold evpBytesToKey
  simp only [hw]
  rw [evpLoopReset_eq_evpLoop std password salt 48 _ [] [] (le_refl _), evpLoop_48,
    specStream_three]
  rw [if_neg (by simp [specBlock_length]), if_neg (by decide), h32, List.take_left' hlen]

theorem specKey_length (std : Primitives) (password salt : Bytes) :
    (specBlock std password salt 0 ++ specBlock std password salt 1).length = 32 := by
  simp [specBlock_length]

/-! ## Lemmas on `Except` and on `strings.ReplaceAll` -/

theorem ok_bind {ε α β : Type} (a : α) (f : α → Except ε β) :
    (Except.ok a >>= f) = f a := rfl

theorem error_bind {ε α β : Type} (e : ε) (f : α → Except ε β) :
    ((Except.error e : Except ε α) >>= f) = Except.error e := rfl

theorem pure_ok {ε α : Type} (a : α) : (pure a : Except ε α) = Except.ok a := rfl

theorem orErr_some {α : Type} (v : α) (e : Err) : orErr (some v) e = .ok v := rfl

theorem orErr_none {α : Type} (e : Err) : orErr (none : Option α) e = .error (.err e) := rfl

/-- Replacing a one-byte text by nothing removes every such byte. -/
theorem ReplaceAll_single (c : Byte) (s : Bytes) :
    ReplaceAll s [c] [] = s.filter fun b => b != c := by
  unfold ReplaceAll
  induction s with
  | nil => rfl
  | cons b rest ih =>
    by_cases hbc : b = c
    · subst hbc
      simp [replaceFrom, List.isPrefixOf, ih]
    · have hne : (c == b) = false := by
        simp only [beq_eq_false_iff_ne]
        exact fun h => hbc h.symm
      simp [replaceFrom, List.isPrefixOf, ih, hne, hbc]

/-- A text without a backslash holds no escaped slash to replace. -/
theorem ReplaceAll_escaped_slash (s : Bytes) (h : (0x5c : Byte) ∉ s) :
    ReplaceAll s (ascii "\\/") (ascii "/") = s := by
  have ha : ascii "\\/" = [0x5c, 0x2f] := by decide
  rw [ha]
  unfold ReplaceAll
  induction s with
  | nil => rfl
  | cons b rest ih =>
    have hb : ((0x5c : Byte) == b) = false := by
      simp only [beq_eq_false_iff_ne]
      exact fun hb => h (hb ▸ List.mem_cons_self _ _)
    have hrest : (0x5c : Byte) ∉ rest := fun hm => h (List.mem_cons_of_mem _ hm)
    simp [replaceFrom, List.isPrefixOf, hb, ih hrest]

/-! ## `DecryptAES` and `DecodeURL` stage by stage -/

theorem throw_error {ε α : Type} (e : ε) : (throw e : Except ε α) = Except.error e := rfl

theorem ascii_backslash : ascii "\\" = [0x5c] := by decide

theorem ascii_quote : ascii "\"" = [0x22] := by decide

/-- When the envelope parses, its texts decode, the ciphertext is whole blocks
and the IV in use has 16 bytes, `DecryptAES` returns the lenient unpadding of
the CBC decryption, whatever that decryption ends in. -/
theorem DecryptAES_of_stages (std : Primitives) (encrypted pw : Bytes)
    (params : CipherParams) (ct salt iv : Bytes)
    (hd : std.unmarshalParams encrypted = some params)
    (hct : std.base64Decode params.CT = some ct)
    (hs : hexDecode params.S = some salt)
    (hiv : (params.IV = [] ∧ iv = specBlock std pw salt 2) ∨
      (params.IV ≠ [] ∧ hexDecode params.IV = some iv ∧ iv.length = 16))
    (hlen : ct.length % 16 = 0) :
    DecryptAES std encrypted pw =
      .ok (PKCS7Unpad (cbcDecryptBlocks std
        (specBlock std pw salt 0 ++ specBlock std pw salt 1) (ct.length / 16) iv ct)) := by
  have hkey := specKey_length std pw salt
  have hcipher : NewCipher (specBlock std pw salt 0 ++ specBlock std pw salt 1) =
      .ok (specBlock std pw salt 0 ++ specBlock std pw salt 1) := by
    unfold NewCipher
    rw [if_pos (Or.inr (Or.inr hkey))]
  have hivl : iv.length = 16 := by
    rcases hiv with ⟨-, h⟩ | ⟨-, -, h⟩
    · rw [h]
      exact specBlock_length std pw salt 2
    · exact h
  have hcbc : NewCBC iv = .ok iv := by
    unfold NewCBC
    rw [if_neg (by simp [hivl])]
  rcases hiv with ⟨h0, h⟩ | ⟨h0, h, -⟩
  · simp only [DecryptAES, hd, orErr_some, ok_bind, hct, hs, EVPBytesToKey_32_16, h0, ne_eq,
      not_true_eq_false, if_false, pure_ok, hcipher, ← h, hcbc, decryptBlocks, hlen]
  · simp only [DecryptAES, hd, orErr_some, ok_bind, hct, hs, EVPBytesToKey_32_16, h0, ne_eq,
      not_false_eq_true, if_true, h, not_true_eq_false, if_false, pure_ok, hcipher, hcbc,
      decryptBlocks, hlen]

/-- When every stage of `DecodeURL` up to the unpadding succeeds, the result is
the unpadded bytes without backslashes and double quotes, or the error for an
empty result. -/
theorem DecodeURL_of_stages (std : Primitives) (input : Bytes)
    (data : CipherParams) (ciphertext iv salt key decryptedPadded plain : Bytes)
    (hd : std.unmarshalParams input = some data)
    (hct : std.base64Decode (ReplaceAll data.CT (ascii "\\/") (ascii "/")) = some ciphertext)
    (hiv : hexDecode data.IV = some iv) (hivl : iv.length = 16)
    (hs : hexDecode data.S = some salt)
    (hkey : evpBytesToKey std password salt keyLen ivLen = .ok key)
    (hdec : decryptBlocks std key iv ciphertext = .ok decryptedPadded)
    (hlen : 16 ≤ ciphertext.length)
    (hun : pkcs7Unpad decryptedPadded = .ok plain) :
    DecodeURL std input =
      if (plain.filter fun b => b != (0x5c : Byte)).filter (fun b => b != (0x22 : Byte)) = []
      then .error (.err .emptyResult)
      else .ok ((plain.filter fun b => b != (0x5c : Byte)).filter fun b => b != (0x22 : Byte)) := by
  have hk : keyLen = 32 := rfl
  have hi : ivLen = 16 := rfl
  have hkeyeq : specBlock std password salt 0 ++ specBlock std password salt 1 = key := by
    rw [hk, hi, evpBytesToKey_32_16] at hkey
    injection hkey
  have hklen : key.length = 32 := by
    rw [← hkeyeq]
    exact specKey_length std password salt
  have hcipher : NewCipher key = .ok key := by
    unfold NewCipher
    rw [if_pos (Or.inr (Or.inr hklen))]
  have hcbc : NewCBC iv = .ok iv := by
    unfold NewCBC
    rw [if_neg (by simp [hivl])]
  have hmod : ciphertext.length % 16 = 0 := by
    unfold decryptBlocks at hdec
    by_contra hne
    rw [if_pos hne] at hdec
    cases hdec
  have hge : ¬ ciphertext.length < 16 := by omega
  simp only [DecodeURL, hd, orErr_some, ok_bind, hct, hiv, hivl, ne_eq, not_true_eq_false,
    if_false, hs, hkey, hcipher, hge, hmod, hcbc, hdec, hun, ascii_backslash, ascii_quote,
    ReplaceAll_single, pure_ok, throw_error]
  split <;> rfl

/-- When `DecodeURL` returns a URL, every stage before it succeeded. -/
theorem DecodeURL_stages_of_ok (std : Primitives) (input url : Bytes)
    (h : DecodeURL std input = .ok url) :
    ∃ (data : CipherParams) (ciphertext iv salt key decryptedPadded plain : Bytes),
      std.unmarshalParams input = some data ∧
      std.base64Decode (ReplaceAll data.CT (ascii "\\/") (ascii "/")) = some ciphertext ∧
      hexDecode data.IV = some iv ∧ iv.length = 16 ∧
      hexDecode data.S = some salt ∧
      evpBytesToKey std password salt keyLen ivLen = .ok key ∧
      decryptBlocks std key iv ciphertext = .ok decryptedPadded ∧
      16 ≤ ciphertext.length ∧
      pkcs7Unpad decryptedPadded = .ok plain := by
  unfold DecodeURL at h
  cases hd : std.unmarshalParams input with
  | none => simp [hd, orErr_none, error_bind] at h
  | some data =>
    simp only [hd, orErr_some, ok_bind] at h
    cases hct : std.base64Decode (ReplaceAll data.CT (ascii "\\/") (ascii "/")) with
    | none => simp [hct, orErr_none, error_bind] at h
    | some ciphertext =>
      simp only [hct, orErr_some, ok_bind] at h
      cases hiv : hexDecode data.IV with
      | none => simp [hiv, orErr_none, error_bind] at h
      | some iv =>
        simp only [hiv, orErr_some, ok_bind] at h
        by_cases hivl : iv.length = 16
        · simp only [hivl, ne_eq, not_true_eq_false, if_false, pure_ok, ok_bind] at h
          cases hs : hexDecode data.S with
          | none => simp [hs, orErr_none, error_bind] at h
          | some salt =>
            simp only [hs, orErr_some, ok_bind] at h
            cases hkey : evpBytesToKey std password salt keyLen ivLen with
            | error e => simp [hkey, error_bind] at h
            | ok key =>
              simp only [hkey, ok_bind] at h
              cases hcipher : NewCipher key with
              | error e => simp [hcipher, error_bind] at h
              | ok block =>
                have hblock : block = key := by
                  unfold NewCipher at hcipher
                  split at hcipher
                  · injection hcipher with h'
                    exact h'.symm
                  · cases hcipher
                subst hblock
                simp only [hcipher, ok_bind] at h
                by_cases hshort : ciphertext.length < 16
                · simp [hshort, throw_error, error_bind] at h
                · simp only [hshort, if_false, pure_ok, ok_bind] at h
                  by_cases hmod : ciphertext.length % 16 = 0
                  · simp only [hmod, ne_eq, not_true_eq_false, if_false, pure_ok, ok_bind] at h
                    have hcbc : NewCBC iv = .ok iv := by
                      unfold NewCBC
                      rw [if_neg (by simp [hivl])]
                    simp only [hcbc, ok_bind] at h
                    cases hdec : decryptBlocks std block iv ciphertext with
                    | error e => simp [hdec, error_bind] at h
                    | ok decryptedPadded =>
                      simp only [hdec, ok_bind] at h
                      cases hun : pkcs7Unpad decryptedPadded with
                      | error e => simp [hun, throw_error, error_bind] at h
                      | ok plain =>
                        exact ⟨data, ciphertext, iv, salt, block, decryptedPadded, plain,
                          rfl, hct, hiv, hivl, hs, hkey, hdec, by omega, hun⟩
                  · simp [hmod, throw_error, error_bind] at h
        · simp [hivl, throw_error, error_bind] at h

/-! ## Claims on the key derivation and the password -/

/-- C3, as the code has it: `EVPBytesToKey` is the legacy OpenSSL derivation
as long as `keyLen + ivLen` does not overflow the 64-bit `int`.  For every
password, every salt (the empty one included) and every `keyLen > 0`,
`ivLen > 0` with `keyLen + ivLen <= 2^63 - 1`, with `O = b(1) || ... || b(n)`
extended until it has at least `keyLen + ivLen` bytes (`n` is the least such
number of blocks), the call returns the key `O[0 : keyLen]` and the IV
`O[keyLen : keyLen + ivLen]`; the key has exactly `keyLen` bytes and the IV
exactly `ivLen` bytes. -/
theorem EVPBytesToKey_spec (std : Primitives) (password salt : Bytes) (keyLen ivLen : Int)
    (hk : 0 < keyLen) (hi : 0 < ivLen) (hsum : keyLen + ivLen < 9223372036854775808) :
    ∃ (n : Nat) (key iv : Bytes),
      EVPBytesToKey std password salt keyLen ivLen = .ok (key, iv) ∧
      keyLen + ivLen ≤ ((specStream std password salt n).length : Int) ∧
      (∀ j : Nat, j < n → ((specStream std password salt j).length : Int) < keyLen + ivLen) ∧
      key = (specStream std password salt n).take keyLen.toNat ∧
      iv = ((specStream std password salt n).take (keyLen + ivLen).toNat).drop keyLen.toNat ∧
      (key.length : Int) = keyLen ∧ (iv.length : Int) = ivLen := by
  obtain ⟨n, -, hrun, htot, hmin⟩ :=
    evpLoop_specStream std password salt (keyLen + ivLen) _ 0 (le_refl _)
  have hlen := specStream_length std password salt n
  have hw : wrap64 (keyLen + ivLen) = keyLen + ivLen := wrap64_of_range _ (by omega) hsum
  refine ⟨n, _, _, ?_, ?_, ?_, rfl, rfl, ?_, ?_⟩
  · unfold EVPBytesToKey
    simp only [hw]
    rw [if_neg (by omega), if_neg (by omega)]
    exact congrArg (fun O => Except.ok (List.take keyLen.toNat O,
      List.drop keyLen.toNat (List.take (keyLen + ivLen).toNat O))) hrun
  · rw [hlen]
    exact htot
  · intro j hj
    rw [specStream_length]
    exact hmin j (Nat.zero_le j) hj
  · rw [List.length_take, hlen]
    omega
  · rw [List.length_drop, List.length_take, hlen]
    omega

/-- Witness for C3: the small primitives, the password `[1]`, the empty salt,
a 32-byte key and a 16-byte IV. -/
theorem EVPBytesToKey_spec_witness :
    (0 : Int) < 32 ∧ (0 : Int) < 16 ∧ (32 : Int) + 16 < 9223372036854775808 ∧
    ∃ (n : Nat) (key iv : Bytes),
      EVPBytesToKey sampleStd [1] [] 32 16 = .ok (key, iv) ∧
      (32 : Int) + 16 ≤ ((specStream sampleStd [1] [] n).length : Int) ∧
      (∀ j : Nat, j < n → ((specStream sampleStd [1] [] j).length : Int) < 32 + 16) ∧
      key = (specStream sampleStd [1] [] n).take (32 : Int).toNat ∧
      iv = ((specStream sampleStd [1] [] n).take ((32 : Int) + 16).toNat).drop (32 : Int).toNat ∧
      (key.length : Int) = 32 ∧ (iv.length : Int) = 16 :=
  ⟨by decide, by decide, by decide,
    EVPBytesToKey_spec sampleStd [1] [] 32 16 (by decide) (by decide) (by decide)⟩

/-- Counterexample to C3 as stated: with `keyLen = 2^63 - 1` and `ivLen = 1`,
both positive, the sum `keyLen + ivLen` wraps to `-2^63`, the loop body never
runs and `derived[:keyLen]` on the empty `derived` panics: no key of `keyLen`
bytes is returned. -/
theorem EVPBytesToKey_sum_overflow :
    (0 : Int) < 9223372036854775807 ∧ (0 : Int) < 1 ∧
    wrap64 (9223372036854775807 + 1) = -9223372036854775808 ∧
    evpLoop sampleStd [1] [] (wrap64 (9223372036854775807 + 1)) [] [] = [] ∧
    EVPBytesToKey sampleStd [1] [] 9223372036854775807 1 = .error (.panic .sliceBounds) := by
  have hw : wrap64 (9223372036854775807 + 1) = -9223372036854775808 := by
    unfold wrap64
    omega
  have hloop : evpLoop sampleStd [1] [] (-9223372036854775808) [] [] = [] :=
    evpLoop_done sampleStd [1] [] _ [] [] (by simp)
  refine ⟨by decide, by decide, hw, by rw [hw, hloop], ?_⟩
  unfold EVPBytesToKey
  simp only [hw]
  rw [if_neg (by decide), if_pos (by decide)]

/-- C8: `Assets()` is the 31-character text `ymXEKzvUkuo5G03.1C159BD535E9793`:
the 14-character text of `Base()` followed by the rendering of pi to 15
decimals, `3.141592653589793` (17 characters, so the cut to 18 removes
nothing), with every even digit replaced by its letter (0 to A, 2 to B, 4 to
C, 6 to D, 8 to E) and every odd digit and the point kept. -/
theorem Assets_value :
    Assets = ascii "ymXEKzvUkuo5G03.1C159BD535E9793" ∧ Assets.length = 31 ∧
    Base = ascii "ymXEKzvUkuo5G0" ∧ Base.length = 14 ∧
    piText = ascii "3.141592653589793" ∧ piText.length = 17 ∧
    (if piText.length > 18 then piText.take 18 else piText) = piText ∧
    Assets = Base ++ piText.map specSubstitute := by
  have hpi : piText = ascii "3.141592653589793" := by decide
  have hbase : Base = ascii "ymXEKzvUkuo5G0" := by decide
  have hcut : (if piText.length > 18 then piText.take 18 else piText) = piText := by
    rw [hpi]
    decide
  have hassets : Assets = ascii "ymXEKzvUkuo5G03.1C159BD535E9793" := by
    unfold Assets assetsOf
    rw [hcut, hpi]
    decide
  refine ⟨hassets, ?_, hbase, ?_, hpi, ?_, hcut, ?_⟩
  · rw [hassets]
    decide
  · rw [hbase]
    decide
  · rw [hpi]
    decide
  · rw [hassets, hbase, hpi]
    decide

/-! ## The small instance satisfies the laws -/

theorem sample_aesInverts : AesInverts sampleStd := by
  intro key b _ hb
  show sampleDecrypt key (sampleEncrypt key b) = b
  have hlen : ((b.map fun x => x ^^^ key.headD 0).reverse).length = 16 := by simp [hb]
  unfold sampleDecrypt
  rw [show sampleEncrypt key b = (b.map fun x => x ^^^ key.headD 0).reverse by
    unfold sampleEncrypt; rw [if_pos hb]]
  rw [if_pos hlen, List.reverse_reverse, List.map_map]
  conv_rhs => rw [← List.map_id b]
  apply List.map_congr_left
  intro x _
  exact byte_xor_cancel x _

theorem sample_base64Inverts : Base64Inverts sampleStd := hexDecode_hexEncode

theorem sample_base64Plain : Base64Plain sampleStd := not_mem_hexEncode

theorem sampleParseField_sampleField (f rest : Bytes) :
    sampleParseField (sampleField f ++ rest) = some (f, rest) := by
  induction f with
  | nil =>
    simp only [sampleField, List.cons_append, List.nil_append]
    rw [sampleParseField.eq_def]
    simp
  | cons b tl ih =>
    simp only [sampleField, List.cons_append]
    rw [sampleParseField.eq_def]
    simp [ih]

theorem sampleUnmarshal_fields (p : CipherParams) :
    sampleUnmarshal (sampleField p.CT ++ sampleField p.IV ++ sampleField p.S) = some p := by
  have h3 : sampleParseField (sampleField p.S) = some (p.S, []) := by
    have := sampleParseField_sampleField p.S []
    rwa [List.append_nil] at this
  unfold sampleUnmarshal
  rw [List.append_assoc, sampleParseField_sampleField]
  simp only [sampleParseField_sampleField, h3]

theorem sample_envelopeInverts : EnvelopeInverts sampleStd := by
  intro ct salt
  exact ⟨_, rfl, sampleUnmarshal_fields _⟩

theorem cbcDecryptBlocks_length (std : Primitives) (key : Bytes) :
    ∀ (n : Nat) (iv src : Bytes), iv.length = 16 → src.length = 16 * n →
      (cbcDecryptBlocks std key n iv src).length = 16 * n := by
  intro n
  induction n with
  | zero => intro iv src _ _; rfl
  | succ n ih =>
    intro iv src hiv hsrc
    have htake : (src.take 16).length = 16 := by
      rw [List.length_take]
      omega
    have hx : (xorBytes (std.aesDecrypt key (src.take 16)) iv).length = 16 := by
      rw [xorBytes_length _ _ (by rw [std.aesDecrypt_size, hiv]), std.aesDecrypt_size]
    simp only [cbcDecryptBlocks, List.length_append, hx,
      ih (src.take 16) (src.drop 16) htake (by rw [List.length_drop]; omega)]
    omega

theorem channelEnvelope_unmarshal (ct salt : Bytes) :
    sampleStd.unmarshalParams (channelEnvelope ct salt) =
      some { CT := hexEncode ct, IV := [], S := hexEncode salt } :=
  sampleUnmarshal_fields { CT := hexEncode ct, IV := [], S := hexEncode salt }

theorem filter_clean (plain : Bytes) :
    (plain.filter fun b => b != (0x5c : Byte)).filter (fun b => b != (0x22 : Byte)) =
      plain.filter fun b => b != (0x5c : Byte) && b != (0x22 : Byte) := by
  rw [List.filter_filter]
  congr 1
  funext b
  exact Bool.and_comm _ _

theorem ivEnvelope_unmarshal (ivText : Bytes) :
    sampleStd.unmarshalParams (ivEnvelope ivText) =
      some { CT := hexEncode sampleCiphertext, IV := ivText, S := hexEncode sampleSalt } :=
  sampleUnmarshal_fields
    { CT := hexEncode sampleCiphertext, IV := ivText, S := hexEncode sampleSalt }

theorem sample_base64_escaped (ct : Bytes) :
    sampleStd.base64Decode (ReplaceAll (hexEncode ct) (ascii "\\/") (ascii "/")) = some ct := by
  show hexDecode (ReplaceAll (hexEncode ct) (ascii "\\/") (ascii "/")) = some ct
  rw [ReplaceAll_escaped_slash _ (not_mem_hexEncode _), hexDecode_hexEncode]

/-- On the small primitives every stage of `DecodeURL` succeeds on the envelope
of a plaintext under `sampleKey`, `sampleIV` and `sampleSalt`. -/
theorem urlEnvelope_stages (p : Bytes) :
    DecodeStages sampleStd (urlEnvelope p)
      { CT := hexEncode (sampleEncryptURL p), IV := hexEncode sampleIV,
        S := hexEncode sampleSalt }
      (sampleEncryptURL p) sampleIV sampleSalt sampleKey (samplePad p) p := by
  have hlt : p.length % 16 < 16 := Nat.mod_lt _ (by decide)
  have hlen : (samplePad p).length = p.length + (16 - p.length % 16) := by
    simp [samplePad]
  have hplen : (samplePad p).length = 16 * ((samplePad p).length / 16) := by omega
  have hclen : (sampleEncryptURL p).length = 16 * ((samplePad p).length / 16) :=
    cbcEncryptBlocks_length sampleStd sampleKey _ sampleIV (samplePad p)
  have hrt : cbcDecryptBlocks sampleStd sampleKey ((samplePad p).length / 16) sampleIV
      (sampleEncryptURL p) = samplePad p :=
    cbcDecryptBlocks_cbcEncryptBlocks sampleStd sample_aesInverts sampleKey
      (specKey_length sampleStd password sampleSalt) _ sampleIV _ rfl hplen
  refine ⟨sampleUnmarshal_fields
      { CT := hexEncode (sampleEncryptURL p), IV := hexEncode sampleIV,
        S := hexEncode sampleSalt },
    sample_base64_escaped _, hexDecode_hexEncode _, rfl, hexDecode_hexEncode _,
    evpBytesToKey_32_16 sampleStd password sampleSalt, ?_, ?_,
    pkcs7Unpad_append_replicate p _ (by omega) (by omega)⟩
  · unfold decryptBlocks
    rw [hclen, if_neg (by omega)]
    have hq : 16 * ((samplePad p).length / 16) / 16 = (samplePad p).length / 16 := by omega
    rw [hq, hrt]
  · rw [hclen]
    omega

/-- On the small primitives: `DecodeURL` on the envelope of a plaintext under
`sampleKey`, `sampleIV` and `sampleSalt`. -/
theorem DecodeURL_urlEnvelope (p : Bytes) :
    DecodeURL sampleStd (urlEnvelope p) =
      if (p.filter fun b => b != (0x5c : Byte) && b != (0x22 : Byte)) = []
      then .error (.err .emptyResult)
      else .ok (p.filter fun b => b != (0x5c : Byte) && b != (0x22 : Byte)) := by
  obtain ⟨h1, h2, h3, h4, h5, h6, h7, h8, h9⟩ := urlEnvelope_stages p
  rw [← filter_clean]
  exact DecodeURL_of_stages sampleStd (urlEnvelope p) _ _ _ _ _ _ _ h1 h2 h3 h4 h5 h6 h7 h8 h9

/-! ## Claims on the obfuscation channel -/

/-- C1: the encrypt/decrypt round trip.  For every plaintext `p` (of any
length), every password `pw` and every 8-byte salt that the random source
returns, `EncryptAES(p, pw)` returns an envelope text on which
`DecryptAES(., pw)` returns exactly `p`, with no error.  AES block decryption
is taken to invert AES block encryption, base64 decoding to invert base64
encoding and `json.Unmarshal` to read back what `json.Marshal` wrote. -/
theorem DecryptAES_EncryptAES (std : Primitives) (hAes : AesInverts std)
    (hB64 : Base64Inverts std) (hEnv : EnvelopeInverts std)
    (p pw salt : Bytes) (_hsalt : salt.length = 8) :
    ∃ text : Bytes, EncryptAES std (some salt) p pw = .ok text ∧
      DecryptAES std text pw = .ok p := by
  have hlt : p.length % 16 < 16 := Nat.mod_lt _ (by decide)
  have hkey := specKey_length std pw salt
  have hivl := specBlock_length std pw salt 2
  have hcipher : NewCipher (specBlock std pw salt 0 ++ specBlock std pw salt 1) =
      .ok (specBlock std pw salt 0 ++ specBlock std pw salt 1) := by
    unfold NewCipher
    rw [if_pos (Or.inr (Or.inr hkey))]
  have hcbc : NewCBC (specBlock std pw salt 2) = .ok (specBlock std pw salt 2) := by
    unfold NewCBC
    rw [if_neg (by simp [hivl])]
  obtain ⟨padded, hpad, hunpad, -⟩ := padded_unpad_both p
  have hplen : padded.length % 16 = 0 := padded_length_mod p padded hpad
  have hdiv : padded.length = 16 * (padded.length / 16) := by omega
  obtain ⟨text, hmar, hunmar⟩ := hEnv
    (cbcEncryptBlocks std (specBlock std pw salt 0 ++ specBlock std pw salt 1)
      (padded.length / 16) (specBlock std pw salt 2) padded) salt
  have hclen := cbcEncryptBlocks_length std
    (specBlock std pw salt 0 ++ specBlock std pw salt 1) (padded.length / 16)
    (specBlock std pw salt 2) padded
  refine ⟨text, ?_, ?_⟩
  · simp only [EncryptAES, orErr_some, ok_bind, EVPBytesToKey_32_16, hcipher, hpad, hcbc,
      encryptBlocks, hplen, ne_eq, not_true_eq_false, if_false, hmar, pure_ok]
  · have hmod : 16 * (padded.length / 16) % 16 = 0 := by omega
    have hq : 16 * (padded.length / 16) / 16 = padded.length / 16 := by omega
    simp only [DecryptAES, hunmar, orErr_some, ok_bind, hB64 _, hexDecode_hexEncode,
      EVPBytesToKey_32_16, hcipher, hcbc, decryptBlocks, hclen, hmod, hq, ne_eq,
      not_true_eq_false, if_false, pure_ok,
      cbcDecryptBlocks_cbcEncryptBlocks std hAes _ hkey _ _ _ hivl hdiv, hunpad]

/-- Witness for C1: the small primitives, the salt `01..08`, the plaintext
`secret` and the password `pw`. -/
theorem DecryptAES_EncryptAES_witness :
    ([1, 2, 3, 4, 5, 6, 7, 8] : Bytes).length = 8 ∧
    ∃ text : Bytes,
      EncryptAES sampleStd (some [1, 2, 3, 4, 5, 6, 7, 8]) (ascii "secret") (ascii "pw") =
        .ok text ∧
      DecryptAES sampleStd text (ascii "pw") = .ok (ascii "secret") :=
  ⟨rfl, DecryptAES_EncryptAES sampleStd sample_aesInverts sample_base64Inverts
    sample_envelopeInverts (ascii "secret") (ascii "pw") [1, 2, 3, 4, 5, 6, 7, 8] rfl⟩

/-- C6, as the code has it: `DecryptAES` does not validate the padding.  For
every password and every envelope whose texts decode, whose ciphertext is a
positive multiple of 16 bytes and whose `iv` field is absent or decodes to 16
bytes, `DecryptAES` returns no error, whatever the CBC decryption `plain` ends
in: it returns `plain` unchanged when its last byte `p` exceeds its length,
and `plain` without its last `p` bytes otherwise, with no check of those
bytes.  So no change of the ciphertext bytes makes `DecryptAES` fail. -/
theorem DecryptAES_ignores_padding (std : Primitives) (encrypted pw : Bytes)
    (params : CipherParams) (ct salt : Bytes)
    (hd : std.unmarshalParams encrypted = some params)
    (hct : std.base64Decode params.CT = some ct)
    (hs : hexDecode params.S = some salt)
    (hiv : params.IV = [] ∨ ∃ iv, hexDecode params.IV = some iv ∧ iv.length = 16)
    (hpos : 0 < ct.length) (hlen : ct.length % 16 = 0) :
    ∃ (key iv0 iv plain : Bytes) (last : Byte),
      EVPBytesToKey std pw salt 32 16 = .ok (key, iv0) ∧
      (params.IV = [] → iv = iv0) ∧
      (params.IV ≠ [] → hexDecode params.IV = some iv) ∧
      decryptBlocks std key iv ct = .ok plain ∧
      plain.getLast? = some last ∧
      DecryptAES std encrypted pw = .ok (PKCS7Unpad plain) ∧
      PKCS7Unpad plain =
        (if last.val > plain.length then plain else plain.take (plain.length - last.val)) := by
  have hstage : ∃ iv : Bytes, iv.length = 16 ∧
      ((params.IV = [] ∧ iv = specBlock std pw salt 2) ∨
        (params.IV ≠ [] ∧ hexDecode params.IV = some iv ∧ iv.length = 16)) := by
    by_cases h0 : params.IV = []
    · exact ⟨_, specBlock_length std pw salt 2, Or.inl ⟨h0, rfl⟩⟩
    · rcases hiv with h | ⟨iv, h1, h2⟩
      · exact absurd h h0
      · exact ⟨iv, h2, Or.inr ⟨h0, h1, h2⟩⟩
  obtain ⟨iv, hivl, hcase⟩ := hstage
  have hrun := DecryptAES_of_stages std encrypted pw params ct salt iv hd hct hs hcase hlen
  have hplen := cbcDecryptBlocks_length std
    (specBlock std pw salt 0 ++ specBlock std pw salt 1) (ct.length / 16) iv ct hivl (by omega)
  have hne : cbcDecryptBlocks std (specBlock std pw salt 0 ++ specBlock std pw salt 1)
      (ct.length / 16) iv ct ≠ [] := by
    intro h
    rw [h] at hplen
    simp only [List.length_nil] at hplen
    omega
  obtain ⟨last, hlast⟩ : ∃ last, (cbcDecryptBlocks std
      (specBlock std pw salt 0 ++ specBlock std pw salt 1) (ct.length / 16) iv ct).getLast? =
        some last := by
    cases hg : (cbcDecryptBlocks std (specBlock std pw salt 0 ++ specBlock std pw salt 1)
      (ct.length / 16) iv ct).getLast? with
    | none => exact absurd (List.getLast?_eq_none_iff.mp hg) hne
    | some last => exact ⟨last, rfl⟩
  refine ⟨_, _, iv, _, last, EVPBytesToKey_32_16 std pw salt, ?_, ?_, ?_, hlast, hrun, ?_⟩
  · intro h0
    rcases hcase with ⟨-, h⟩ | ⟨h, -, -⟩
    · exact h
    · exact absurd h0 h
  · intro h0
    rcases hcase with ⟨h, -⟩ | ⟨-, h, -⟩
    · exact absurd h h0
    · exact h
  · unfold decryptBlocks
    rw [if_neg (by simp [hlen])]
  · have hget := getD_last_of_getLast? _ _ hlast
    unfold PKCS7Unpad
    simp only [hget]
    rw [if_neg (by omega)]

/-- Witness for C6: the envelope of the flipped ciphertext on the small
primitives; its decryption ends in a zero byte and is returned whole. -/
theorem DecryptAES_ignores_padding_witness :
    0 < sampleFlippedCiphertext.length ∧ sampleFlippedCiphertext.length % 16 = 0 ∧
    ∃ (key iv0 iv plain : Bytes) (last : Byte),
      EVPBytesToKey sampleStd samplePassword sampleSalt 32 16 = .ok (key, iv0) ∧
      (([] : Bytes) = [] → iv = iv0) ∧
      (([] : Bytes) ≠ [] → hexDecode [] = some iv) ∧
      decryptBlocks sampleStd key iv sampleFlippedCiphertext = .ok plain ∧
      plain.getLast? = some last ∧
      DecryptAES sampleStd (channelEnvelope sampleFlippedCiphertext sampleSalt) samplePassword =
        .ok (PKCS7Unpad plain) ∧
      PKCS7Unpad plain =
        (if last.val > plain.length then plain else plain.take (plain.length - last.val)) :=
  ⟨by decide, by decide,
    DecryptAES_ignores_padding sampleStd (channelEnvelope sampleFlippedCiphertext sampleSalt)
      samplePassword { CT := hexEncode sampleFlippedCiphertext, IV := [], S := hexEncode sampleSalt }
      sampleFlippedCiphertext sampleSalt (channelEnvelope_unmarshal _ _)
      (hexDecode_hexEncode _) (hexDecode_hexEncode _) (Or.inl rfl) (by decide) (by decide)⟩

/-- Counterexample to C6 as stated: on the small primitives the ciphertext of
`secret` with its first byte flipped is 16 bytes, its CBC decryption ends in a
zero byte, which the strict unpadding rejects, and `DecryptAES` returns that
decryption as a plaintext, with no error. -/
theorem DecryptAES_accepts_invalid_padding :
    DecryptAES sampleStd (channelEnvelope sampleValidCiphertext sampleSalt) samplePassword =
      .ok (ascii "secret") ∧
    sampleFlippedCiphertext.length = 16 ∧
    sampleFlippedCiphertext.tail = sampleValidCiphertext.tail ∧
    decryptBlocks sampleStd sampleChannelKey sampleChannelIV sampleFlippedCiphertext =
      .ok sampleFlippedPlain ∧
    sampleFlippedPlain.getLast? = some 0 ∧
    pkcs7Unpad sampleFlippedPlain = .error .length ∧
    DecryptAES sampleStd (channelEnvelope sampleFlippedCiphertext sampleSalt) samplePassword =
      .ok sampleFlippedPlain := by
  refine ⟨?_, by decide, by decide, by rfl, by decide, by rfl, ?_⟩
  · rw [DecryptAES_of_stages sampleStd _ samplePassword _ sampleValidCiphertext sampleSalt
      sampleChannelIV (channelEnvelope_unmarshal _ _) (hexDecode_hexEncode _)
      (hexDecode_hexEncode _) (Or.inl ⟨rfl, rfl⟩) (by decide)]
    exact congrArg Except.ok (by decide)
  · rw [DecryptAES_of_stages sampleStd _ samplePassword _ sampleFlippedCiphertext sampleSalt
      sampleChannelIV (channelEnvelope_unmarshal _ _) (hexDecode_hexEncode _)
      (hexDecode_hexEncode _) (Or.inl ⟨rfl, rfl⟩) (by decide)]
    exact congrArg Except.ok (by decide)

/-! ## Claims on `DecodeURL` -/

/-- C2: `DecodeURL` end to end.  For every salt, every 16-byte `iv` and every
non-empty plaintext `p` without backslash and double quote, with `key` the
32-byte key derived from the fixed password and the salt, `DecodeURL` on a
text that parses to the envelope with `ct` the base64 of the AES-256-CBC
encryption under `key` and `iv` of `PKCS7Pad(p, 16)`, `iv` the hex of `iv` and
`s` the hex of the salt returns exactly `p`, with no error. -/
theorem DecodeURL_end_to_end (std : Primitives) (hAes : AesInverts std)
    (hB64 : Base64Inverts std) (hPlain : Base64Plain std)
    (salt iv p key iv0 padded ct envelope : Bytes)
    (hiv : iv.length = 16) (hp : p ≠ [])
    (hbs : (0x5c : Byte) ∉ p) (hdq : (0x22 : Byte) ∉ p)
    (hkey : EVPBytesToKey std password salt 32 16 = .ok (key, iv0))
    (hpad : PKCS7Pad p 16 = .ok padded)
    (hct : encryptBlocks std key iv padded = .ok ct)
    (henv : std.unmarshalParams envelope =
      some { CT := std.base64Encode ct, IV := hexEncode iv, S := hexEncode salt }) :
    DecodeURL std envelope = .ok p := by
  have hlt : p.length % 16 < 16 := Nat.mod_lt _ (by decide)
  rw [EVPBytesToKey_32_16] at hkey
  have hkeyeq : specBlock std password salt 0 ++ specBlock std password salt 1 = key := by
    injection hkey with h
    exact congrArg Prod.fst h
  have hklen : key.length = 32 := by
    rw [← hkeyeq]
    exact specKey_length std password salt
  have hcipher : NewCipher key = .ok key := by
    unfold NewCipher
    rw [if_pos (Or.inr (Or.inr hklen))]
  have hcbc : NewCBC iv = .ok iv := by
    unfold NewCBC
    rw [if_neg (by simp [hiv])]
  have hplen : padded.length % 16 = 0 := padded_length_mod p padded hpad
  have hppos : 16 ≤ padded.length := by
    rw [PKCS7Pad_sixteen] at hpad
    cases hpad
    simp only [List.length_append, List.length_replicate]
    omega
  have hdiv : padded.length = 16 * (padded.length / 16) := by omega
  have hcteq : ct = cbcEncryptBlocks std key (padded.length / 16) iv padded := by
    unfold encryptBlocks at hct
    rw [if_neg (by simp [hplen])] at hct
    injection hct with h
    exact h.symm
  have hclen : ct.length = 16 * (padded.length / 16) := by
    rw [hcteq]
    exact cbcEncryptBlocks_length std key _ iv padded
  have hdec : cbcDecryptBlocks std key (ct.length / 16) iv ct = padded := by
    have hq : ct.length / 16 = padded.length / 16 := by omega
    rw [hq, hcteq]
    exact cbcDecryptBlocks_cbcEncryptBlocks std hAes key hklen _ iv padded hiv hdiv
  obtain ⟨padded2, hpad2, -, hunpad⟩ := padded_unpad_both p
  rw [hpad] at hpad2
  cases hpad2
  have hbsl : ascii "\\" = [0x5c] := by decide
  have hquo : ascii "\"" = [0x22] := by decide
  have hf1 : p.filter (fun b => b != (0x5c : Byte)) = p := by
    rw [List.filter_eq_self]
    intro a ha
    simp only [bne_iff_ne, ne_eq]
    exact fun h => hbs (h ▸ ha)
  have hf2 : p.filter (fun b => b != (0x22 : Byte)) = p := by
    rw [List.filter_eq_self]
    intro a ha
    simp only [bne_iff_ne, ne_eq]
    exact fun h => hdq (h ▸ ha)
  have hk : keyLen = 32 := rfl
  have hi : ivLen = 16 := rfl
  have hge : ¬ ct.length < 16 := by omega
  have hmod : ct.length % 16 = 0 := by omega
  simp only [DecodeURL, henv, orErr_some, ok_bind, ReplaceAll_escaped_slash _ (hPlain ct),
    hB64 ct, hexDecode_hexEncode, hiv, ne_eq, not_true_eq_false, if_false, hk, hi,
    evpBytesToKey_32_16, hkeyeq, hcipher, hge, hmod, hcbc, decryptBlocks, hdec, hunpad,
    hbsl, hquo, ReplaceAll_single, hf1, hf2, hp, pure_ok]

/-- Witness for C2: the small primitives, the salt `0102030405060708` and the
plaintext `https://example.com/playlist.m3u8`. -/
theorem DecodeURL_end_to_end_witness :
    sampleIV.length = 16 ∧ sampleURL ≠ [] ∧ (0x5c : Byte) ∉ sampleURL ∧
    (0x22 : Byte) ∉ sampleURL ∧ hexEncode sampleSalt = ascii "0102030405060708" ∧
    DecodeURL sampleStd sampleEnvelope = .ok sampleURL :=
  ⟨rfl, by decide, by decide, by decide, by decide,
    DecodeURL_end_to_end sampleStd sample_aesInverts sample_base64Inverts sample_base64Plain
      sampleSalt sampleIV sampleURL sampleKey (specBlock sampleStd password sampleSalt 2)
      (sampleURL ++ List.replicate 15 (15 : Byte)) sampleCiphertext sampleEnvelope
      rfl (by decide) (by decide) (by decide)
      (EVPBytesToKey_32_16 sampleStd password sampleSalt)
      (PKCS7Pad_sixteen sampleURL) rfl
      (sampleUnmarshal_fields
        { CT := hexEncode sampleCiphertext, IV := hexEncode sampleIV,
          S := hexEncode sampleSalt })⟩

/-- C9: the result of `DecodeURL` is clean and non-empty.  For every input, a
URL that `DecodeURL` returns is non-empty, holds no backslash and no double
quote, and is the unpadded decrypted bytes with every backslash and double
quote removed; and when every stage succeeds and those cleaned bytes are
empty, `DecodeURL` returns the error for an empty result instead. -/
theorem DecodeURL_clean (std : Primitives) (input : Bytes) :
    (∀ url : Bytes, DecodeURL std input = .ok url →
      url ≠ [] ∧ (0x5c : Byte) ∉ url ∧ (0x22 : Byte) ∉ url ∧
      ∃ (data : CipherParams) (ciphertext iv salt key decryptedPadded plain : Bytes),
        DecodeStages std input data ciphertext iv salt key decryptedPadded plain ∧
        url = plain.filter fun b => b != (0x5c : Byte) && b != (0x22 : Byte)) ∧
    (∀ (data : CipherParams) (ciphertext iv salt key decryptedPadded plain : Bytes),
      DecodeStages std input data ciphertext iv salt key decryptedPadded plain →
      (plain.filter fun b => b != (0x5c : Byte) && b != (0x22 : Byte)) = [] →
      DecodeURL std input = .error (.err .emptyResult)) := by
  constructor
  · intro url hok
    obtain ⟨data, ciphertext, iv, salt, key, decryptedPadded, plain,
      h1, h2, h3, h4, h5, h6, h7, h8, h9⟩ := DecodeURL_stages_of_ok std input url hok
    have hrun := DecodeURL_of_stages std input data ciphertext iv salt key decryptedPadded
      plain h1 h2 h3 h4 h5 h6 h7 h8 h9
    rw [filter_clean, hok] at hrun
    by_cases hempty : (plain.filter fun b => b != (0x5c : Byte) && b != (0x22 : Byte)) = []
    · rw [if_pos hempty] at hrun
      cases hrun
    · rw [if_neg hempty] at hrun
      injection hrun with hurl
      subst hurl
      refine ⟨hempty, ?_, ?_, data, ciphertext, iv, salt, key, decryptedPadded, plain,
        ⟨h1, h2, h3, h4, h5, h6, h7, h8, h9⟩, rfl⟩
      · intro hmem
        have := (List.mem_filter.mp hmem).2
        simp at this
      · intro hmem
        have := (List.mem_filter.mp hmem).2
        simp at this
  · intro data ciphertext iv salt key decryptedPadded plain hst hempty
    obtain ⟨h1, h2, h3, h4, h5, h6, h7, h8, h9⟩ := hst
    have hrun := DecodeURL_of_stages std input data ciphertext iv salt key decryptedPadded
      plain h1 h2 h3 h4 h5 h6 h7 h8 h9
    rw [filter_clean, if_pos hempty] at hrun
    exact hrun

/-- Witness for C9 on the small primitives: the envelope of a quoted URL with
escaped slashes gives the URL without quotes and backslashes, and the
envelope of two double quotes gives the error for an empty result. -/
theorem DecodeURL_clean_witness :
    DecodeURL sampleStd (urlEnvelope sampleEscapedURL) = .ok (ascii "https://a.b/c") ∧
    ascii "https://a.b/c" ≠ [] ∧ (0x5c : Byte) ∉ ascii "https://a.b/c" ∧
    (0x22 : Byte) ∉ ascii "https://a.b/c" ∧
    DecodeURL sampleStd (urlEnvelope (ascii "\"\"")) = .error (.err .emptyResult) :=
  have hok : DecodeURL sampleStd (urlEnvelope sampleEscapedURL) = .ok (ascii "https://a.b/c") :=
    (DecodeURL_urlEnvelope sampleEscapedURL).trans (by rfl)
  have hclean := (DecodeURL_clean sampleStd (urlEnvelope sampleEscapedURL)).1 _ hok
  ⟨hok, hclean.1, hclean.2.1, hclean.2.2.1,
    (DecodeURL_clean sampleStd (urlEnvelope (ascii "\"\""))).2 _ _ _ _ _ _ _
      (urlEnvelope_stages (ascii "\"\"")) (by decide)⟩

/-- C10: `DecodeURL` rejects an IV of the wrong length.  For every input that
parses to an envelope whose `ct` is valid base64: if the `iv` field does not
hex-decode to exactly 16 bytes, `DecodeURL` returns the error of the hex
decoding or the error for the IV length, and no URL; an `iv` of 30 characters
is such a field, and so is an absent or empty one, which gives the error for
the IV length. -/
theorem DecodeURL_rejects_iv (std : Primitives) (input : Bytes) (data : CipherParams)
    (ciphertext : Bytes)
    (hd : std.unmarshalParams input = some data)
    (hct : std.base64Decode (ReplaceAll data.CT (ascii "\\/") (ascii "/")) = some ciphertext) :
    ((∀ iv : Bytes, hexDecode data.IV = some iv → iv.length ≠ 16) →
      DecodeURL std input = .error (.err .hexIV) ∨
        DecodeURL std input = .error (.err .ivLength)) ∧
    (data.IV.length = 30 →
      DecodeURL std input = .error (.err .hexIV) ∨
        DecodeURL std input = .error (.err .ivLength)) ∧
    (data.IV = [] → DecodeURL std input = .error (.err .ivLength)) := by
  have hgen : (∀ iv : Bytes, hexDecode data.IV = some iv → iv.length ≠ 16) →
      DecodeURL std input = .error (.err .hexIV) ∨
        DecodeURL std input = .error (.err .ivLength) := by
    intro hbad
    cases hiv : hexDecode data.IV with
    | none =>
      left
      simp only [DecodeURL, hd, orErr_some, ok_bind, hct, hiv, orErr_none, error_bind]
    | some iv =>
      right
      have hne := hbad iv hiv
      simp only [DecodeURL, hd, orErr_some, ok_bind, hct, hiv, ne_eq, hne, not_false_eq_true,
        if_true, throw_error, error_bind]
  refine ⟨hgen, ?_, ?_⟩
  · intro h30
    apply hgen
    intro iv hiv
    have := hexDecode_length _ data.IV iv (le_refl _) hiv
    omega
  · intro h0
    simp only [DecodeURL, hd, orErr_some, ok_bind, hct, h0, hexDecode, List.length_nil, ne_eq,
      OfNat.zero_ne_ofNat, not_false_eq_true, if_true, throw_error, error_bind]

/-- Witness for C10 on the small primitives: an `iv` of 30 hex characters and
an empty `iv`. -/
theorem DecodeURL_rejects_iv_witness :
    (ascii "0102030405060708090a0b0c0d0e0f").length = 30 ∧
    (DecodeURL sampleStd (ivEnvelope (ascii "0102030405060708090a0b0c0d0e0f")) =
        .error (.err .hexIV) ∨
      DecodeURL sampleStd (ivEnvelope (ascii "0102030405060708090a0b0c0d0e0f")) =
        .error (.err .ivLength)) ∧
    DecodeURL sampleStd (ivEnvelope []) = .error (.err .ivLength) :=
  ⟨by decide,
    (DecodeURL_rejects_iv sampleStd (ivEnvelope (ascii "0102030405060708090a0b0c0d0e0f"))
      { CT := hexEncode sampleCiphertext, IV := ascii "0102030405060708090a0b0c0d0e0f",
        S := hexEncode sampleSalt }
      sampleCiphertext (ivEnvelope_unmarshal _) (sample_base64_escaped _)).2.1 (by decide),
    (DecodeURL_rejects_iv sampleStd (ivEnvelope [])
      { CT := hexEncode sampleCiphertext, IV := [], S := hexEncode sampleSalt }
      sampleCiphertext (ivEnvelope_unmarshal _) (sample_base64_escaped _)).2.2 rfl⟩

/-! ## Claims on ciphertext lengths -/

theorem ctEnvelope_unmarshal (ct : Bytes) :
    sampleStd.unmarshalParams (ctEnvelope ct) =
      some { CT := hexEncode ct, IV := hexEncode sampleIV, S := hexEncode sampleSalt } :=
  sampleUnmarshal_fields
    { CT := hexEncode ct, IV := hexEncode sampleIV, S := hexEncode sampleSalt }

/-- The private derivation at the sizes of `DecodeURL` returns a 32-byte key
that `aes.NewCipher` accepts. -/
theorem decodeKey_ok (std : Primitives) (salt : Bytes) :
    ∃ key : Bytes, evpBytesToKey std password salt keyLen ivLen = .ok key ∧
      NewCipher key = .ok key := by
  refine ⟨_, evpBytesToKey_32_16 std password salt, ?_⟩
  unfold NewCipher
  rw [if_pos (Or.inr (Or.inr (specKey_length std password salt)))]

/-- C11: `DecodeURL` rejects a ciphertext of bad length.  For every input that
parses to an envelope whose `ct` decodes to zero bytes or to a number of bytes
that is not a multiple of 16: `DecodeURL` returns some error and no URL; and
when the `iv` decodes to 16 bytes and the salt is valid hex, the error is the
one for a short ciphertext (below 16 bytes) or the one for a length that is
not a multiple of the block size, and it is the same whatever the block
cipher is, which is not run. -/
theorem DecodeURL_rejects_length (std : Primitives) (input : Bytes) (data : CipherParams)
    (ciphertext : Bytes)
    (hd : std.unmarshalParams input = some data)
    (hct : std.base64Decode (ReplaceAll data.CT (ascii "\\/") (ascii "/")) = some ciphertext)
    (hbad : ciphertext.length = 0 ∨ ciphertext.length % 16 ≠ 0) :
    (∃ e : Err, DecodeURL std input = .error (.err e)) ∧
    (∀ iv salt : Bytes, hexDecode data.IV = some iv → iv.length = 16 →
      hexDecode data.S = some salt →
      (ciphertext.length < 16 → DecodeURL std input = .error (.err .tooShort)) ∧
      (16 ≤ ciphertext.length → DecodeURL std input = .error (.err .notBlockMultiple)) ∧
      ∀ (enc dec : Bytes → Bytes → Bytes) (henc : ∀ key b, (enc key b).length = 16)
        (hdec : ∀ key b, (dec key b).length = 16),
        DecodeURL (withBlockCipher std enc dec henc hdec) input = DecodeURL std input) := by
  have hlen : ∀ (std2 : Primitives) (iv salt : Bytes),
      std2.unmarshalParams input = some data →
      std2.base64Decode (ReplaceAll data.CT (ascii "\\/") (ascii "/")) = some ciphertext →
      hexDecode data.IV = some iv → iv.length = 16 → hexDecode data.S = some salt →
      (ciphertext.length < 16 → DecodeURL std2 input = .error (.err .tooShort)) ∧
      (16 ≤ ciphertext.length → DecodeURL std2 input = .error (.err .notBlockMultiple)) := by
    intro std2 iv salt hd2 hct2 hiv hivl hs
    obtain ⟨key, hkey, hcipher⟩ := decodeKey_ok std2 salt
    constructor
    · intro hshort
      simp only [DecodeURL, hd2, orErr_some, ok_bind, hct2, hiv, hivl, ne_eq,
        not_true_eq_false, if_false, pure_ok, hs, hkey, hcipher, hshort, if_true,
        throw_error, error_bind]
    · intro hge
      have hnot : ¬ ciphertext.length < 16 := by omega
      have hmod : ciphertext.length % 16 ≠ 0 := by
        rcases hbad with h | h
        · omega
        · exact h
      simp only [DecodeURL, hd2, orErr_some, ok_bind, hct2, hiv, hivl, ne_eq,
        not_true_eq_false, if_false, pure_ok, hs, hkey, hcipher, hnot, hmod,
        not_false_eq_true, if_true, throw_error, error_bind]
  constructor
  · cases hiv : hexDecode data.IV with
    | none =>
      exact ⟨.hexIV, by simp only [DecodeURL, hd, orErr_some, ok_bind, hct, hiv, orErr_none,
        error_bind]⟩
    | some iv =>
      by_cases hivl : iv.length = 16
      · cases hs : hexDecode data.S with
        | none =>
          exact ⟨.hexSalt, by simp only [DecodeURL, hd, orErr_some, ok_bind, hct, hiv, hivl,
            ne_eq, not_true_eq_false, if_false, pure_ok, hs, orErr_none, error_bind]⟩
        | some salt =>
          obtain ⟨h1, h2⟩ := hlen std iv salt hd hct hiv hivl hs
          by_cases hshort : ciphertext.length < 16
          · exact ⟨_, h1 hshort⟩
          · exact ⟨_, h2 (by omega)⟩
      · exact ⟨.ivLength, by simp only [DecodeURL, hd, orErr_some, ok_bind, hct, hiv, ne_eq,
          hivl, not_false_eq_true, if_true, throw_error, error_bind]⟩
  · intro iv salt hiv hivl hs
    obtain ⟨h1, h2⟩ := hlen std iv salt hd hct hiv hivl hs
    refine ⟨h1, h2, ?_⟩
    intro enc dec henc hdec
    obtain ⟨g1, g2⟩ := hlen (withBlockCipher std enc dec henc hdec) iv salt hd hct hiv hivl hs
    by_cases hshort : ciphertext.length < 16
    · rw [g1 hshort, h1 hshort]
    · rw [g2 (by omega), h2 (by omega)]

/-- Witness for C11 on the small primitives: a ciphertext of five bytes and an
empty ciphertext give the error for a short ciphertext, one of twenty bytes
the error for a length that is not a multiple of the block size. -/
theorem DecodeURL_rejects_length_witness :
    ([1, 2, 3, 4, 5] : Bytes).length % 16 ≠ 0 ∧
    DecodeURL sampleStd (ctEnvelope [1, 2, 3, 4, 5]) = .error (.err .tooShort) ∧
    DecodeURL sampleStd (ctEnvelope []) = .error (.err .tooShort) ∧
    DecodeURL sampleStd (ctEnvelope (List.replicate 20 7)) = .error (.err .notBlockMultiple) :=
  ⟨by decide,
    ((DecodeURL_rejects_length sampleStd (ctEnvelope [1, 2, 3, 4, 5]) _ [1, 2, 3, 4, 5]
      (ctEnvelope_unmarshal _) (sample_base64_escaped _) (Or.inr (by decide))).2
      sampleIV sampleSalt (hexDecode_hexEncode _) rfl (hexDecode_hexEncode _)).1 (by decide),
    ((DecodeURL_rejects_length sampleStd (ctEnvelope []) _ []
      (ctEnvelope_unmarshal _) (sample_base64_escaped _) (Or.inl rfl)).2
      sampleIV sampleSalt (hexDecode_hexEncode _) rfl (hexDecode_hexEncode _)).1 (by decide),
    ((DecodeURL_rejects_length sampleStd (ctEnvelope (List.replicate 20 7)) _
      (List.replicate 20 7)
      (ctEnvelope_unmarshal _) (sample_base64_escaped _) (Or.inr (by decide))).2
      sampleIV sampleSalt (hexDecode_hexEncode _) rfl (hexDecode_hexEncode _)).2.1 (by decide)⟩

/-- C12, what the code does: `DecryptAES` has no check of the ciphertext
length.  For every password and every envelope whose texts decode and whose
`iv` field is absent or decodes to 16 bytes: a ciphertext whose length is not
a multiple of 16 makes `CryptBlocks` panic (`input not full blocks`), and an
empty ciphertext gives the empty plaintext with no error.  Neither is the
error that the claim asks for. -/
theorem DecryptAES_bad_length (std : Primitives) (encrypted pw : Bytes)
    (params : CipherParams) (ct salt : Bytes)
    (hd : std.unmarshalParams encrypted = some params)
    (hct : std.base64Decode params.CT = some ct)
    (hs : hexDecode params.S = some salt)
    (hiv : params.IV = [] ∨ ∃ iv, hexDecode params.IV = some iv ∧ iv.length = 16) :
    (ct.length % 16 ≠ 0 → DecryptAES std encrypted pw = .error (.panic .notFullBlocks)) ∧
    (ct.length = 0 → DecryptAES std encrypted pw = .ok []) := by
  have hkey := specKey_length std pw salt
  have hcipher : NewCipher (specBlock std pw salt 0 ++ specBlock std pw salt 1) =
      .ok (specBlock std pw salt 0 ++ specBlock std pw salt 1) := by
    unfold NewCipher
    rw [if_pos (Or.inr (Or.inr hkey))]
  have hstage : ∃ iv : Bytes, iv.length = 16 ∧
      ((params.IV = [] ∧ iv = specBlock std pw salt 2) ∨
        (params.IV ≠ [] ∧ hexDecode params.IV = some iv ∧ iv.length = 16)) := by
    by_cases h0 : params.IV = []
    · exact ⟨_, specBlock_length std pw salt 2, Or.inl ⟨h0, rfl⟩⟩
    · rcases hiv with h | ⟨iv, h1, h2⟩
      · exact absurd h h0
      · exact ⟨iv, h2, Or.inr ⟨h0, h1, h2⟩⟩
  obtain ⟨iv, hivl, hcase⟩ := hstage
  have hcbc : NewCBC iv = .ok iv := by
    unfold NewCBC
    rw [if_neg (by simp [hivl])]
  constructor
  · intro hmod
    rcases hcase with ⟨h0, h⟩ | ⟨h0, h, -⟩
    · simp only [DecryptAES, hd, orErr_some, ok_bind, hct, hs, EVPBytesToKey_32_16, h0, ne_eq,
        not_true_eq_false, if_false, pure_ok, hcipher, ← h, hcbc, decryptBlocks, hmod,
        not_false_eq_true, if_true, error_bind]
    · simp only [DecryptAES, hd, orErr_some, ok_bind, hct, hs, EVPBytesToKey_32_16, h0, ne_eq,
        not_false_eq_true, if_true, h, pure_ok, hcipher, hcbc, decryptBlocks, hmod,
        error_bind]
  · intro hzero
    have hnil : ct = [] := List.length_eq_zero.mp hzero
    rw [DecryptAES_of_stages std encrypted pw params ct salt iv hd hct hs hcase (by omega)]
    subst hnil
    rfl

/-- Witness for C12 on the small primitives: a ciphertext of five bytes makes
`DecryptAES` panic, an empty one gives the empty plaintext. -/
theorem DecryptAES_bad_length_witness :
    ([1, 2, 3, 4, 5] : Bytes).length % 16 ≠ 0 ∧
    DecryptAES sampleStd (channelEnvelope [1, 2, 3, 4, 5] sampleSalt) samplePassword =
      .error (.panic .notFullBlocks) ∧
    DecryptAES sampleStd (channelEnvelope [] sampleSalt) samplePassword = .ok [] :=
  ⟨by decide,
    (DecryptAES_bad_length sampleStd (channelEnvelope [1, 2, 3, 4, 5] sampleSalt) samplePassword
      _ [1, 2, 3, 4, 5] sampleSalt (channelEnvelope_unmarshal _ _) (hexDecode_hexEncode _)
      (hexDecode_hexEncode _) (Or.inl rfl)).1 (by decide),
    (DecryptAES_bad_length sampleStd (channelEnvelope [] sampleSalt) samplePassword
      _ [] sampleSalt (channelEnvelope_unmarshal _ _) (hexDecode_hexEncode _)
      (hexDecode_hexEncode _) (Or.inl rfl)).2 rfl⟩

/-! ## Claims on the `iv` field of the obfuscation channel -/

theorem fieldEnvelope_unmarshal (ct ivText salt : Bytes) :
    sampleStd.unmarshalParams (fieldEnvelope ct ivText salt) =
      some { CT := hexEncode ct, IV := ivText, S := hexEncode salt } :=
  sampleUnmarshal_fields { CT := hexEncode ct, IV := ivText, S := hexEncode salt }

/-- With the salt decoded and the derivation done, `DecryptAES` is the rest of
its body on the IV in use `iv`: the derived one when the `iv` field is empty,
the decoded field otherwise. -/
theorem DecryptAES_with_iv (std : Primitives) (encrypted pw : Bytes) (params : CipherParams)
    (salt key iv0 iv : Bytes)
    (hd : std.unmarshalParams encrypted = some params)
    (hs : hexDecode params.S = some salt)
    (hkey : EVPBytesToKey std pw salt 32 16 = .ok (key, iv0))
    (hiv : (params.IV = [] ∧ iv = iv0) ∨ (params.IV ≠ [] ∧ hexDecode params.IV = some iv)) :
    DecryptAES std encrypted pw =
      (orErr (std.base64Decode params.CT) .base64 >>= fun ciphertext =>
        NewCipher key >>= fun block =>
        NewCBC iv >>= fun mode =>
        decryptBlocks std block mode ciphertext >>= fun plaintext =>
        pure (PKCS7Unpad plaintext)) := by
  cases hct : std.base64Decode params.CT with
  | none => simp only [DecryptAES, hd, orErr_some, ok_bind, hct, orErr_none, error_bind]
  | some ct =>
    rcases hiv with ⟨h0, h⟩ | ⟨h0, h⟩
    · simp only [DecryptAES, hd, orErr_some, ok_bind, hct, hs, hkey, h0, ne_eq,
        not_true_eq_false, if_false, pure_ok, h]
    · simp only [DecryptAES, hd, orErr_some, ok_bind, hct, hs, hkey, h0, ne_eq,
        not_false_eq_true, if_true, h, pure_ok]

/-- C13, as the code has it: `DecryptAES` ignores the `iv` field only when it
is empty.  For every password and every two envelopes with the same `ct` and
the same `s`, whose salt is valid hex: when each `iv` field is absent or is
the hex text of the IV derived from the password and the salt, `DecryptAES`,
and with the password `Assets` also `GetHres`, return the same result on
both; a non-empty `iv` field that decodes to 16 bytes is used as the IV, in
place of the derived one, and an absent one leaves the derived IV in use. -/
theorem DecryptAES_iv_field (std : Primitives) (pw e1 e2 : Bytes) (p1 p2 : CipherParams)
    (salt key iv0 : Bytes)
    (h1 : std.unmarshalParams e1 = some p1) (h2 : std.unmarshalParams e2 = some p2)
    (hct : p1.CT = p2.CT) (hs : p1.S = p2.S)
    (hsalt : hexDecode p1.S = some salt)
    (hkey : EVPBytesToKey std pw salt 32 16 = .ok (key, iv0)) :
    ((p1.IV = [] ∨ hexDecode p1.IV = some iv0) → (p2.IV = [] ∨ hexDecode p2.IV = some iv0) →
      DecryptAES std e1 pw = DecryptAES std e2 pw ∧
      (pw = Assets → GetHres std e1 = GetHres std e2)) ∧
    (∀ ct iv : Bytes, std.base64Decode p1.CT = some ct → ct.length % 16 = 0 →
      p1.IV ≠ [] → hexDecode p1.IV = some iv → iv.length = 16 →
      DecryptAES std e1 pw = .ok (PKCS7Unpad (cbcDecryptBlocks std key (ct.length / 16) iv ct))) ∧
    (∀ ct : Bytes, std.base64Decode p1.CT = some ct → ct.length % 16 = 0 →
      p1.IV = [] →
      DecryptAES std e1 pw =
        .ok (PKCS7Unpad (cbcDecryptBlocks std key (ct.length / 16) iv0 ct))) := by
  have hk := hkey
  rw [EVPBytesToKey_32_16] at hk
  have hkeyeq : specBlock std pw salt 0 ++ specBlock std pw salt 1 = key := by
    injection hk with h
    exact congrArg Prod.fst h
  have hiveq : specBlock std pw salt 2 = iv0 := by
    injection hk with h
    exact congrArg Prod.snd h
  have hiv0l : iv0.length = 16 := by
    rw [← hiveq]
    exact specBlock_length std pw salt 2
  have heff : ∀ p : CipherParams, (p.IV = [] ∨ hexDecode p.IV = some iv0) →
      (p.IV = [] ∧ iv0 = iv0) ∨ (p.IV ≠ [] ∧ hexDecode p.IV = some iv0) := by
    intro p hp
    by_cases h0 : p.IV = []
    · exact Or.inl ⟨h0, rfl⟩
    · rcases hp with h | h
      · exact absurd h h0
      · exact Or.inr ⟨h0, h⟩
  refine ⟨?_, ?_, ?_⟩
  · intro hiv1 hiv2
    have hsame : DecryptAES std e1 pw = DecryptAES std e2 pw := by
      rw [DecryptAES_with_iv std e1 pw p1 salt key iv0 iv0 h1 hsalt hkey (heff p1 hiv1),
        DecryptAES_with_iv std e2 pw p2 salt key iv0 iv0 h2 (hs ▸ hsalt) hkey (heff p2 hiv2),
        hct]
    refine ⟨hsame, ?_⟩
    intro hpw
    subst hpw
    unfold GetHres
    rw [hsame]
  · intro ct iv hdec hmod h0 hiv hivl
    rw [← hkeyeq]
    exact DecryptAES_of_stages std e1 pw p1 ct salt iv h1 hdec hsalt
      (Or.inr ⟨h0, hiv, hivl⟩) hmod
  · intro ct hdec hmod h0
    rw [← hkeyeq]
    exact DecryptAES_of_stages std e1 pw p1 ct salt iv0 h1 hdec hsalt
      (Or.inl ⟨h0, hiveq.symm⟩) hmod

/-- Witness for C13 on the small primitives: the envelope without `iv` and the
envelope whose `iv` is the hex text of the derived IV decrypt alike. -/
theorem DecryptAES_iv_field_witness :
    DecryptAES sampleStd (fieldEnvelope hresCiphertext [] sampleSalt) Assets =
      DecryptAES sampleStd (fieldEnvelope hresCiphertext
        (hexEncode (specBlock sampleStd Assets sampleSalt 2)) sampleSalt) Assets ∧
    GetHres sampleStd (fieldEnvelope hresCiphertext [] sampleSalt) =
      GetHres sampleStd (fieldEnvelope hresCiphertext
        (hexEncode (specBlock sampleStd Assets sampleSalt 2)) sampleSalt) :=
  have h := (DecryptAES_iv_field sampleStd Assets
    (fieldEnvelope hresCiphertext [] sampleSalt)
    (fieldEnvelope hresCiphertext (hexEncode (specBlock sampleStd Assets sampleSalt 2))
      sampleSalt) _ _ sampleSalt _ _
    (fieldEnvelope_unmarshal _ _ _) (fieldEnvelope_unmarshal _ _ _) rfl rfl
    (hexDecode_hexEncode _) (EVPBytesToKey_32_16 sampleStd Assets sampleSalt)).1
    (Or.inl rfl) (Or.inr (hexDecode_hexEncode _))
  ⟨h.1, h.2 rfl⟩

set_option maxRecDepth 100000 in
/-- Counterexample to C13 as stated: on the small primitives two envelopes
with the same `ct` and `s`, one without `iv` and one whose `iv` is the hex
text of another 16-byte IV, decrypt differently, in `DecryptAES` and in
`GetHres`. -/
theorem DecryptAES_uses_iv_field :
    sampleStd.unmarshalParams (fieldEnvelope hresCiphertext [] sampleSalt) =
      some { CT := hexEncode hresCiphertext, IV := [], S := hexEncode sampleSalt } ∧
    sampleStd.unmarshalParams (fieldEnvelope hresCiphertext (hexEncode sampleIV) sampleSalt) =
      some { CT := hexEncode hresCiphertext, IV := hexEncode sampleIV,
             S := hexEncode sampleSalt } ∧
    DecryptAES sampleStd (fieldEnvelope hresCiphertext [] sampleSalt) Assets =
      .ok (ascii "secret") ∧
    DecryptAES sampleStd (fieldEnvelope hresCiphertext (hexEncode sampleIV) sampleSalt) Assets =
      .ok [225, 231, 229, 244, 231, 246, 132, 132, 136, 136, 140, 140, 136, 136, 148, 148] ∧
    GetHres sampleStd (fieldEnvelope hresCiphertext [] sampleSalt) = .ok (ascii "secret") ∧
    GetHres sampleStd (fieldEnvelope hresCiphertext (hexEncode sampleIV) sampleSalt) =
      .ok [225, 231, 229, 244, 231, 246, 132, 132, 136, 136, 140, 140, 136, 136, 148, 148] := by
  have hplain : DecryptAES sampleStd (fieldEnvelope hresCiphertext [] sampleSalt) Assets =
      .ok (ascii "secret") := by
    rw [DecryptAES_of_stages sampleStd _ Assets _ hresCiphertext sampleSalt
      (specBlock sampleStd Assets sampleSalt 2) (fieldEnvelope_unmarshal _ _ _)
      (hexDecode_hexEncode _) (hexDecode_hexEncode _) (Or.inl ⟨rfl, rfl⟩) (by decide)]
    exact congrArg Except.ok (by decide)
  have hother : DecryptAES sampleStd
      (fieldEnvelope hresCiphertext (hexEncode sampleIV) sampleSalt) Assets =
      .ok [225, 231, 229, 244, 231, 246, 132, 132, 136, 136, 140, 140, 136, 136, 148, 148] := by
    rw [DecryptAES_of_stages sampleStd _ Assets _ hresCiphertext sampleSalt sampleIV
      (fieldEnvelope_unmarshal _ _ _) (hexDecode_hexEncode _) (hexDecode_hexEncode _)
      (Or.inr ⟨by decide, hexDecode_hexEncode _, rfl⟩) (by decide)]
    exact congrArg Except.ok (by decide)
  refine ⟨fieldEnvelope_unmarshal _ _ _, fieldEnvelope_unmarshal _ _ _, hplain, hother, ?_, ?_⟩
  · unfold GetHres
    rw [hplain]
    rfl
  · unfold GetHres
    rw [hother]
    rfl

/-! ## Claims on the two derivations and their lengths -/

/-- The loop of `EVPBytesToKey` from the empty state computes `n` blocks when
`n` is the least number of blocks that gives `total` bytes. -/
theorem evpLoop_blocks (std : Primitives) (password salt : Bytes) (total : Int) (n : Nat)
    (h1 : total ≤ (16 * n : Nat)) (h2 : n = 0 ∨ ((16 * (n - 1) : Nat) : Int) < total) :
    evpLoop std password salt total [] [] = specStream std password salt n := by
  obtain ⟨m, -, hrun, htot, hmin⟩ := evpLoop_specStream std password salt total _ 0 (le_refl _)
  have hmn : m = n := by
    by_contra hne
    rcases Nat.lt_or_gt_of_ne hne with hlt | hgt
    · rcases h2 with h0 | h
      · omega
      · omega
    · have := hmin n (Nat.zero_le n) hgt
      omega
  rw [hmn] at hrun
  exact hrun

/-- The accumulator of the specification grows by appending. -/
theorem specStream_add (std : Primitives) (password salt : Bytes) (m d : Nat) :
    ∃ rest : Bytes, specStream std password salt (m + d) = specStream std password salt m ++ rest := by
  induction d with
  | zero => exact ⟨[], by simp⟩
  | succ d ih =>
    obtain ⟨rest, hrest⟩ := ih
    refine ⟨rest ++ specBlock std password salt (m + d), ?_⟩
    rw [← Nat.add_assoc, specStream, hrest, List.append_assoc]

/-- The first `k` bytes of the accumulator are the same at every number of
blocks that holds them. -/
theorem take_specStream (std : Primitives) (password salt : Bytes) (k m n : Nat)
    (hm : k ≤ 16 * m) (hn : k ≤ 16 * n) :
    (specStream std password salt m).take k = (specStream std password salt n).take k := by
  have haux : ∀ a b : Nat, a ≤ b → k ≤ 16 * a →
      (specStream std password salt a).take k = (specStream std password salt b).take k := by
    intro a b hab hka
    obtain ⟨rest, hrest⟩ := specStream_add std password salt a (b - a)
    have hb : a + (b - a) = b := by omega
    rw [hb] at hrest
    rw [hrest, List.take_append_of_le_length (by rw [specStream_length]; exact hka)]
  rcases Nat.le_total m n with h | h
  · exact haux m n h hm
  · exact (haux n m h hn).symm

/-- For lengths that are not negative and whose sum does not overflow, both
derivations return, with the slices of the accumulator at the least sufficient
number of blocks. -/
theorem derivations_nonneg (std : Primitives) (password salt : Bytes) (keyLen ivLen : Int)
    (hk : 0 ≤ keyLen) (hi : 0 ≤ ivLen) (hsum : keyLen + ivLen < 9223372036854775808) :
    ∃ n : Nat, keyLen + ivLen ≤ (16 * n : Nat) ∧
      EVPBytesToKey std password salt keyLen ivLen =
        .ok ((specStream std password salt n).take keyLen.toNat,
          ((specStream std password salt n).take (keyLen + ivLen).toNat).drop keyLen.toNat) ∧
      evpBytesToKey std password salt keyLen ivLen =
        .ok ((specStream std password salt n).take keyLen.toNat) := by
  obtain ⟨n, -, hrun, htot, -⟩ :=
    evpLoop_specStream std password salt (keyLen + ivLen) _ 0 (le_refl _)
  have hlen := specStream_length std password salt n
  have hw : wrap64 (keyLen + ivLen) = keyLen + ivLen := wrap64_of_range _ (by omega) hsum
  refine ⟨n, htot, ?_, ?_⟩
  · unfold EVPBytesToKey
    simp only [hw]
    rw [if_neg (by omega), if_neg (by omega)]
    exact congrArg (fun O => Except.ok (List.take keyLen.toNat O,
      List.drop keyLen.toNat (List.take (keyLen + ivLen).toNat O))) hrun
  · have hreset := evpLoopReset_eq_evpLoop std password salt (keyLen + ivLen) _ [] []
      (le_refl _)
    unfold evpBytesToKey
    simp only [hw]
    rw [hreset]
    have hrun' : evpLoop std password salt (keyLen + ivLen) [] [] =
        specStream std password salt n := hrun
    rw [hrun', if_neg (by rw [hlen]; omega), if_neg (by omega)]

/-- C14, as the code has it: the key derivation does not validate its lengths.
For every password and salt and every `keyLen >= 0` and `ivLen >= 0`, zero
included, with `keyLen + ivLen <= 2^63 - 1` (no overflow of the 64-bit `int`),
`EVPBytesToKey` returns a key of exactly `keyLen` bytes and an IV of exactly
`ivLen` bytes and the private `evpBytesToKey` returns a key of `keyLen`
bytes, with no error; a zero length gives an empty key or an empty IV. -/
theorem derivation_accepts_zero (std : Primitives) (password salt : Bytes) (keyLen ivLen : Int)
    (hk : 0 ≤ keyLen) (hi : 0 ≤ ivLen) (hsum : keyLen + ivLen < 9223372036854775808) :
    ∃ key iv key2 : Bytes,
      EVPBytesToKey std password salt keyLen ivLen = .ok (key, iv) ∧
      evpBytesToKey std password salt keyLen ivLen = .ok key2 ∧
      (key.length : Int) = keyLen ∧ (iv.length : Int) = ivLen ∧
      (key2.length : Int) = keyLen ∧
      (keyLen = 0 → key = [] ∧ key2 = []) ∧ (ivLen = 0 → iv = []) := by
  obtain ⟨n, htot, hpub, hpriv⟩ :=
    derivations_nonneg std password salt keyLen ivLen hk hi hsum
  have hlen := specStream_length std password salt n
  have hkl : (((specStream std password salt n).take keyLen.toNat).length : Int) = keyLen := by
    rw [List.length_take, hlen]
    omega
  have hil : ((((specStream std password salt n).take (keyLen + ivLen).toNat).drop
      keyLen.toNat).length : Int) = ivLen := by
    rw [List.length_drop, List.length_take, hlen]
    omega
  refine ⟨_, _, _, hpub, hpriv, hkl, hil, hkl, ?_, ?_⟩
  · intro h0
    have : ((specStream std password salt n).take keyLen.toNat).length = 0 := by omega
    exact ⟨List.length_eq_zero.mp this, List.length_eq_zero.mp this⟩
  · intro h0
    have : (((specStream std password salt n).take (keyLen + ivLen).toNat).drop
        keyLen.toNat).length = 0 := by omega
    exact List.length_eq_zero.mp this

/-- Witness for C14 on the small primitives: a key length of zero with an IV
length of 16. -/
theorem derivation_accepts_zero_witness :
    (0 : Int) ≤ 0 ∧ (0 : Int) ≤ 16 ∧ (0 : Int) + 16 < 9223372036854775808 ∧
    ∃ key iv key2 : Bytes,
      EVPBytesToKey sampleStd [1] [] 0 16 = .ok (key, iv) ∧
      evpBytesToKey sampleStd [1] [] 0 16 = .ok key2 ∧
      (key.length : Int) = 0 ∧ (iv.length : Int) = 16 ∧
      (key2.length : Int) = 0 ∧
      ((0 : Int) = 0 → key = [] ∧ key2 = []) ∧ ((16 : Int) = 0 → iv = []) :=
  ⟨by decide, by decide, by decide,
    derivation_accepts_zero sampleStd [1] [] 0 16 (by decide) (by decide) (by decide)⟩

/-- Counterexample to C14 as stated: on the small primitives, with a key length
of zero both derivations return key material and no error, and so does the
public one with an IV length of zero. -/
theorem derivation_zero_lengths :
    EVPBytesToKey sampleStd [1] [] 0 16 =
      .ok ([], [1, 2, 3, 4, 5, 6, 7, 8, 9, 10, 11, 12, 13, 14, 15, 16]) ∧
    evpBytesToKey sampleStd [1] [] 0 16 = .ok [] ∧
    EVPBytesToKey sampleStd [1] [] 16 0 =
      .ok ([1, 2, 3, 4, 5, 6, 7, 8, 9, 10, 11, 12, 13, 14, 15, 16], []) := by
  have hloop : evpLoop sampleStd [1] [] 16 [] [] = specStream sampleStd [1] [] 1 :=
    evpLoop_blocks sampleStd [1] [] 16 1 (by decide) (Or.inr (by decide))
  have hreset : evpLoopReset sampleStd [1] [] 16 [] [] [] = specStream sampleStd [1] [] 1 :=
    (evpLoopReset_eq_evpLoop sampleStd [1] [] 16 _ [] [] (le_refl _)).trans hloop
  have hw : wrap64 ((0 : Int) + 16) = 16 := by decide
  have hw2 : wrap64 ((16 : Int) + 0) = 16 := by decide
  refine ⟨?_, ?_, ?_⟩
  · unfold EVPBytesToKey
    simp only [hw, hloop]
    rfl
  · unfold evpBytesToKey
    simp only [hw, hreset]
    rfl
  · unfold EVPBytesToKey
    simp only [hw2, hloop]
    rfl

/-- C15, as the code has it: the two key derivations agree as long as
`keyLen + ivLen` does not overflow the 64-bit `int`.  For every password,
every salt (the empty one included, which the private variant writes to the
hasher and the public variant skips) and every `keyLen >= 0`, `ivLen >= 0`
with `keyLen + ivLen <= 2^63 - 1`, the private `evpBytesToKey` returns no
error and the key that is the key component of the public `EVPBytesToKey`. -/
theorem derivations_agree (std : Primitives) (password salt : Bytes) (keyLen ivLen : Int)
    (hk : 0 ≤ keyLen) (hi : 0 ≤ ivLen) (hsum : keyLen + ivLen < 9223372036854775808) :
    ∃ key iv : Bytes,
      EVPBytesToKey std password salt keyLen ivLen = .ok (key, iv) ∧
      evpBytesToKey std password salt keyLen ivLen = .ok key := by
  obtain ⟨n, -, hpub, hpriv⟩ :=
    derivations_nonneg std password salt keyLen ivLen hk hi hsum
  exact ⟨_, _, hpub, hpriv⟩

/-- Witness for C15 on the small primitives: the empty salt, a 32-byte key and
a 16-byte IV. -/
theorem derivations_agree_witness :
    (0 : Int) ≤ 32 ∧ (0 : Int) ≤ 16 ∧ (32 : Int) + 16 < 9223372036854775808 ∧
    ∃ key iv : Bytes,
      EVPBytesToKey sampleStd [1] [] 32 16 = .ok (key, iv) ∧
      evpBytesToKey sampleStd [1] [] 32 16 = .ok key :=
  ⟨by decide, by decide, by decide,
    derivations_agree sampleStd [1] [] 32 16 (by decide) (by decide) (by decide)⟩

/-- Counterexample to C15 as stated: with `keyLen = 2^63 - 1` and `ivLen = 1`,
neither of them negative, the sum wraps to `-2^63` and neither loop runs; the
private `evpBytesToKey` returns its error (zero derived bytes are fewer than
`keyLen`) and the public `EVPBytesToKey` panics on `derived[:keyLen]`, so
there is no key on which the two agree. -/
theorem derivations_overflow_fail :
    (0 : Int) ≤ 9223372036854775807 ∧ (0 : Int) ≤ 1 ∧
    evpBytesToKey sampleStd [1] [] 9223372036854775807 1 = .error (.err .deriveKey) ∧
    EVPBytesToKey sampleStd [1] [] 9223372036854775807 1 = .error (.panic .sliceBounds) := by
  have hw : wrap64 (9223372036854775807 + 1) = -9223372036854775808 := by
    unfold wrap64
    omega
  have hloop : evpLoop sampleStd [1] [] (-9223372036854775808) [] [] = [] :=
    evpLoop_done sampleStd [1] [] _ [] [] (by simp)
  have hreset : evpLoopReset sampleStd [1] [] (-9223372036854775808) [] [] [] = [] :=
    (evpLoopReset_eq_evpLoop sampleStd [1] [] _ _ [] [] (le_refl _)).trans hloop
  refine ⟨by decide, by decide, ?_, ?_⟩
  · unfold evpBytesToKey
    simp only [hw, hreset]
    rw [if_pos (by decide)]
  · unfold EVPBytesToKey
    simp only [hw]
    rw [if_neg (by decide), if_pos (by decide)]

/-- C19, as the code has it: the derived key does not depend on the IV length
asked for and is stable under growing the key length, as long as the sums of
the lengths do not overflow the 64-bit `int`.  For every password and salt,
every `0 <= keyLen <= keyLen2` and every `ivLen, ivLen2 >= 0` with
`keyLen + ivLen <= 2^63 - 1` and `keyLen2 + ivLen2 <= 2^63 - 1`:
`EVPBytesToKey` at `(keyLen, ivLen)` and at `(keyLen, ivLen2)` return the same
key, and that key is the first `keyLen` bytes of the key at
`(keyLen2, ivLen2)`.  At 32 and 16 the loop leaves exactly the three blocks
`b1 || b2 || b3`, the key is `b1 || b2` and the IV is `b3`. -/
theorem EVPBytesToKey_key_stable (std : Primitives) (password salt : Bytes)
    (keyLen keyLen2 ivLen ivLen2 : Int)
    (hk : 0 ≤ keyLen) (hkk : keyLen ≤ keyLen2) (hi : 0 ≤ ivLen) (hi2 : 0 ≤ ivLen2)
    (hsum : keyLen + ivLen < 9223372036854775808)
    (hsum2 : keyLen2 + ivLen2 < 9223372036854775808) :
    (∃ key iv iv1 key2 iv2 : Bytes,
      EVPBytesToKey std password salt keyLen ivLen = .ok (key, iv) ∧
      EVPBytesToKey std password salt keyLen ivLen2 = .ok (key, iv1) ∧
      EVPBytesToKey std password salt keyLen2 ivLen2 = .ok (key2, iv2) ∧
      (key.length : Int) = keyLen ∧ key = key2.take keyLen.toNat) ∧
    evpLoop std password salt (32 + 16) [] [] =
      std.md5 (password ++ salt) ++
        std.md5 (std.md5 (password ++ salt) ++ password ++ salt) ++
        std.md5 (std.md5 (std.md5 (password ++ salt) ++ password ++ salt) ++ password ++ salt) ∧
    EVPBytesToKey std password salt 32 16 =
      .ok (std.md5 (password ++ salt) ++
          std.md5 (std.md5 (password ++ salt) ++ password ++ salt),
        std.md5 (std.md5 (std.md5 (password ++ salt) ++ password ++ salt) ++ password ++ salt)) := by
  obtain ⟨n, hn, hpub, -⟩ := derivations_nonneg std password salt keyLen ivLen hk hi hsum
  obtain ⟨n1, hn1, hpub1, -⟩ :=
    derivations_nonneg std password salt keyLen ivLen2 hk hi2 (by omega)
  obtain ⟨n2, hn2, hpub2, -⟩ :=
    derivations_nonneg std password salt keyLen2 ivLen2 (by omega) hi2 hsum2
  have h1 : (specStream std password salt n1).take keyLen.toNat =
      (specStream std password salt n).take keyLen.toNat :=
    take_specStream std password salt _ n1 n (by omega) (by omega)
  have h2 : (specStream std password salt n).take keyLen.toNat =
      (specStream std password salt n2).take keyLen.toNat :=
    take_specStream std password salt _ n n2 (by omega) (by omega)
  refine ⟨⟨_, _,
    ((specStream std password salt n1).take (keyLen + ivLen2).toNat).drop keyLen.toNat,
    _, _, hpub, ?_, hpub2, ?_, ?_⟩, ?_, ?_⟩
  · rw [hpub1, h1]
  · rw [List.length_take, specStream_length]
    omega
  · rw [List.take_take, h2]
    congr 1
    omega
  · rw [show ((32 : Int) + 16) = 48 by decide, evpLoop_48]
    simp [specStream, specBlock]
  · rw [EVPBytesToKey_32_16]
    simp [specBlock]

/-- Witness for C19 on the small primitives: key lengths 16 and 32, IV lengths
16 and 0. -/
theorem EVPBytesToKey_key_stable_witness :
    (0 : Int) ≤ 16 ∧ (16 : Int) ≤ 32 ∧ (0 : Int) ≤ 16 ∧ (0 : Int) ≤ 0 ∧
    (16 : Int) + 16 < 9223372036854775808 ∧ (32 : Int) + 0 < 9223372036854775808 ∧
    ∃ key iv iv1 key2 iv2 : Bytes,
      EVPBytesToKey sampleStd [1] [2] 16 16 = .ok (key, iv) ∧
      EVPBytesToKey sampleStd [1] [2] 16 0 = .ok (key, iv1) ∧
      EVPBytesToKey sampleStd [1] [2] 32 0 = .ok (key2, iv2) ∧
      (key.length : Int) = 16 ∧ key = key2.take (16 : Int).toNat :=
  ⟨by decide, by decide, by decide, by decide, by decide, by decide,
    (EVPBytesToKey_key_stable sampleStd [1] [2] 16 32 16 0 (by decide) (by decide) (by decide)
      (by decide) (by decide) (by decide)).1⟩

/-- Counterexample to C19 as stated: with `keyLen = 16`, the IV length 16 gives
the 16-byte key `b1`, while the IV length `2^63 - 1` makes the sum wrap to
`-2^63 + 15`, the loop body never runs and `derived[:16]` panics: the two
calls do not return the same key. -/
theorem EVPBytesToKey_iv_overflow :
    (0 : Int) ≤ 16 ∧ (0 : Int) ≤ 16 ∧ (0 : Int) ≤ 9223372036854775807 ∧
    EVPBytesToKey sampleStd [1] [] 16 16 =
      .ok ([1, 2, 3, 4, 5, 6, 7, 8, 9, 10, 11, 12, 13, 14, 15, 16],
        [137, 138, 139, 140, 141, 142, 143, 144, 145, 146, 147, 148, 149, 150, 151, 152]) ∧
    EVPBytesToKey sampleStd [1] [] 16 9223372036854775807 =
      .error (.panic .sliceBounds) := by
  have hloop : evpLoop sampleStd [1] [] 32 [] [] = specStream sampleStd [1] [] 2 :=
    evpLoop_blocks sampleStd [1] [] 32 2 (by decide) (Or.inr (by decide))
  have hw0 : wrap64 ((16 : Int) + 16) = 32 := by decide
  have hw : wrap64 (16 + 9223372036854775807) = -9223372036854775793 := by
    unfold wrap64
    omega
  refine ⟨by decide, by decide, by decide, ?_, ?_⟩
  · unfold EVPBytesToKey
    simp only [hw0, hloop]
    rfl
  · unfold EVPBytesToKey
    simp only [hw]
    rw [if_neg (by decide), if_pos (by decide)]

/-! ## Claims on the two unpaddings and on other block sizes -/

/-- C16: the two unpad functions differ only in strictness.  Whenever the
strict `pkcs7Unpad(data)` succeeds with `r`, the lenient `PKCS7Unpad(data)`
returns the same `r`; and the lenient `PKCS7Unpad` has no failure: on every
input it returns the input or a shorter beginning of it. -/
theorem PKCS7Unpad_of_strict (data r : Bytes) (h : pkcs7Unpad data = .ok r) :
    PKCS7Unpad data = r ∧
    ∀ d : Bytes, PKCS7Unpad d = d.take (PKCS7Unpad d).length := by
  constructor
  · unfold pkcs7Unpad at h
    unfold PKCS7Unpad
    by_cases h0 : data.length = 0
    · simp only [h0, if_true] at h
      cases h
    · simp only [h0, if_false] at h
      rw [if_neg h0]
      by_cases hbad : (data.getD (data.length - 1) 0).val > data.length ∨
          (data.getD (data.length - 1) 0).val > 16 ∨ (data.getD (data.length - 1) 0).val = 0
      · rw [if_pos hbad] at h
        cases h
      · rw [if_neg hbad] at h
        simp only []
        rw [if_neg (fun hgt => hbad (Or.inl hgt))]
        split at h
        · cases h
        · injection h
  · intro d
    unfold PKCS7Unpad
    by_cases h0 : d.length = 0
    · simp only [h0, if_true, List.take_zero]
      exact List.length_eq_zero.mp h0
    · simp only [h0, if_false]
      by_cases hgt : (d.getD (d.length - 1) 0).val > d.length
      · simp only [hgt, if_true, List.take_length]
      · simp only [hgt, if_false, List.length_take, List.take_take]
        congr 1
        omega

/-- Witness for C16 at `data = [5, 2, 2]`: both unpaddings give `[5]`. -/
theorem PKCS7Unpad_of_strict_witness :
    pkcs7Unpad [5, 2, 2] = .ok [5] ∧ PKCS7Unpad [5, 2, 2] = [5] :=
  ⟨rfl, (PKCS7Unpad_of_strict [5, 2, 2] [5] rfl).1⟩

/-- Padding to a block size `b` that is positive: `b - len mod b` bytes of
that value are appended. -/
theorem PKCS7Pad_pos (x : Bytes) (b : Nat) (hb : 0 < b) :
    PKCS7Pad x (b : Int) =
      .ok (x ++ List.replicate (b - x.length % b) (byte ((b - x.length % b : Nat) : Int))) := by
  have hlt : x.length % b < b := Nat.mod_lt _ hb
  have hmod : Int.tmod (x.length : Int) (b : Int) = ((x.length % b : Nat) : Int) := by
    rw [Int.tmod_eq_emod (by omega) (by omega)]
    exact (Int.ofNat_emod _ _).symm
  have hpad : (b : Int) - ((x.length % b : Nat) : Int) = ((b - x.length % b : Nat) : Int) := by
    omega
  unfold PKCS7Pad
  simp only [hmod, hpad]
  rw [if_neg (by omega), if_neg (by omega)]
  simp

/-- The lenient unpadding returns a run of zero bytes unchanged. -/
theorem PKCS7Unpad_zeros (n : Nat) :
    PKCS7Unpad (List.replicate n (0 : Byte)) = List.replicate n (0 : Byte) := by
  cases n with
  | zero => rfl
  | succ n =>
    have hlast : (List.replicate (n + 1) (0 : Byte)).getLast? = some 0 := by
      rw [List.getLast?_replicate, if_neg (by omega)]
    have hget := getD_last_of_getLast? _ _ hlast
    unfold PKCS7Unpad
    simp only [hget]
    rw [if_neg (by simp), if_neg (by simp)]
    exact List.take_length _

/-- C20: the pad/unpad round trip holds for every block size that fits a byte.
For every `blockSize` with `1 <= blockSize <= 255` and every `x`,
`PKCS7Pad(x, blockSize)` returns a `padded` whose length is a positive
multiple of `blockSize` and `PKCS7Unpad(padded) = x`.  The bound is needed: at
block size 256 the pad of the empty input is 256 zero bytes, which
`PKCS7Unpad` returns unchanged. -/
theorem PKCS7Unpad_PKCS7Pad_blockSize (blockSize : Int) (h1 : 1 ≤ blockSize)
    (h2 : blockSize ≤ 255) (x : Bytes) :
    (∃ (padded : Bytes) (k : Nat),
      PKCS7Pad x blockSize = .ok padded ∧ PKCS7Unpad padded = x ∧
      0 < k ∧ (padded.length : Int) = k * blockSize) ∧
    PKCS7Pad [] 256 = .ok (List.replicate 256 (0 : Byte)) ∧
    PKCS7Unpad (List.replicate 256 (0 : Byte)) = List.replicate 256 (0 : Byte) := by
  obtain ⟨b, rfl⟩ := Int.eq_ofNat_of_zero_le (by omega : 0 ≤ blockSize)
  have hb : 0 < b := by omega
  have hlt : x.length % b < b := Nat.mod_lt _ hb
  refine ⟨⟨_, x.length / b + 1, PKCS7Pad_pos x b hb,
    PKCS7Unpad_append_replicate x _ (by omega) (by omega), Nat.succ_pos _, ?_⟩, ?_, ?_⟩
  · have hdiv := Nat.div_add_mod x.length b
    have hlen : (x ++ List.replicate (b - x.length % b)
        (byte ((b - x.length % b : Nat) : Int))).length = (x.length / b + 1) * b := by
      simp only [List.length_append, List.length_replicate]
      rw [Nat.add_mul, Nat.one_mul, Nat.mul_comm (x.length / b) b]
      omega
    rw [hlen]
    push_cast
    ring
  · rfl
  · exact PKCS7Unpad_zeros 256

/-- Witness for C20 at block size 8 and a five-byte input. -/
theorem PKCS7Unpad_PKCS7Pad_blockSize_witness :
    (1 : Int) ≤ 8 ∧ (8 : Int) ≤ 255 ∧
    ∃ (padded : Bytes) (k : Nat),
      PKCS7Pad [1, 2, 3, 4, 5] 8 = .ok padded ∧ PKCS7Unpad padded = [1, 2, 3, 4, 5] ∧
      0 < k ∧ (padded.length : Int) = k * 8 :=
  ⟨by decide, by decide,
    (PKCS7Unpad_PKCS7Pad_blockSize 8 (by decide) (by decide) [1, 2, 3, 4, 5]).1⟩

/-! ## Claims on escaped slashes and on the channel for values -/

/-- Undoing the escape: in a text without backslash, replacing each escaped
slash of the escaped text gives the text back. -/
theorem ReplaceAll_escapeSlashes (b : Bytes) (h : (0x5c : Byte) ∉ b) :
    ReplaceAll (escapeSlashes b) (ascii "\\/") (ascii "/") = b := by
  have ha : ascii "\\/" = [0x5c, 0x2f] := by decide
  have hs : ascii "/" = [0x2f] := by decide
  rw [ha, hs]
  unfold ReplaceAll
  induction b with
  | nil => rfl
  | cons c rest ih =>
    have hrest : (0x5c : Byte) ∉ rest := fun hm => h (List.mem_cons_of_mem _ hm)
    have hc : ((0x5c : Byte) == c) = false := by
      simp only [beq_eq_false_iff_ne]
      exact fun hb => h (hb ▸ List.mem_cons_self _ _)
    by_cases hslash : c = 0x2f
    · subst hslash
      simp [escapeSlashes, replaceFrom, List.isPrefixOf, ih hrest]
    · simp [escapeSlashes, hslash, replaceFrom, List.isPrefixOf, hc, ih hrest]

/-- `DecodeURL` sees the `ct` field only after the escaped slashes are
replaced. -/
theorem DecodeURL_congr_ct (std : Primitives) (e1 e2 : Bytes) (d1 d2 : CipherParams)
    (h1 : std.unmarshalParams e1 = some d1) (h2 : std.unmarshalParams e2 = some d2)
    (hct : ReplaceAll d1.CT (ascii "\\/") (ascii "/") =
      ReplaceAll d2.CT (ascii "\\/") (ascii "/"))
    (hiv : d1.IV = d2.IV) (hs : d1.S = d2.S) :
    DecodeURL std e1 = DecodeURL std e2 := by
  simp only [DecodeURL, h1, h2, orErr_some, ok_bind, hct, hiv, hs]

/-- C17: escaped slashes in `ct` are tolerated.  For every text `b` that base64
decoding accepts and every `iv` and `s`, `DecodeURL` on an input that parses
to the envelope whose `ct` is `b` with each slash written as backslash, slash
returns the same result, URL or failure, as on an input that parses to the
envelope whose `ct` is `b` itself; the replacement gives `b` back before the
base64 decoding.  A base64 text is taken to hold no backslash. -/
theorem DecodeURL_escaped_slashes (std : Primitives) (hAlpha : Base64Alphabet std)
    (b x iv s e1 e2 : Bytes)
    (hb : std.base64Decode b = some x)
    (h1 : std.unmarshalParams e1 = some { CT := escapeSlashes b, IV := iv, S := s })
    (h2 : std.unmarshalParams e2 = some { CT := b, IV := iv, S := s }) :
    DecodeURL std e1 = DecodeURL std e2 ∧
    ReplaceAll (escapeSlashes b) (ascii "\\/") (ascii "/") = b ∧
    ReplaceAll b (ascii "\\/") (ascii "/") = b := by
  have hplain := hAlpha b x hb
  have hesc := ReplaceAll_escapeSlashes b hplain
  have hid := ReplaceAll_escaped_slash b hplain
  refine ⟨?_, hesc, hid⟩
  exact DecodeURL_congr_ct std e1 e2 _ _ h1 h2 (by rw [hesc, hid]) rfl rfl

theorem fromHexChar_backslash : fromHexChar (0x5c : Byte) = none := by decide

theorem not_mem_of_hexDecode : ∀ (n : Nat) (s out : Bytes), s.length ≤ n →
    hexDecode s = some out → (0x5c : Byte) ∉ s := by
  intro n
  induction n with
  | zero =>
    intro s out hn _
    have : s = [] := List.length_eq_zero.mp (by omega)
    subst this
    simp
  | succ n ih =>
    intro s out hn h
    match s, h with
    | [], _ => simp
    | [_], h => simp [hexDecode] at h
    | p :: q :: rest, h =>
      simp only [hexDecode] at h
      split at h
      · rename_i a c hp hq
        split at h
        · rename_i tl htl
          have hrest := ih rest tl (by simp only [List.length_cons] at hn; omega) htl
          have hpne : p ≠ 0x5c := by
            intro hp0
            rw [hp0, fromHexChar_backslash] at hp
            cases hp
          have hqne : q ≠ 0x5c := by
            intro hq0
            rw [hq0, fromHexChar_backslash] at hq
            cases hq
          simp only [List.mem_cons, not_or]
          exact ⟨fun hm => hpne hm.symm, fun hm => hqne hm.symm, hrest⟩
        · simp at h
      · simp at h

theorem slash_alphabet : Base64Alphabet slashStd := by
  intro b x hb
  have hb2 : hexDecode (b.filter fun c => c != (0x2f : Byte)) = some x := hb
  have hnot := not_mem_of_hexDecode _ _ x (le_refl _) hb2
  intro hmem
  exact hnot (List.mem_filter.mpr ⟨hmem, by decide⟩)

theorem textEnvelope_unmarshal (ctText : Bytes) :
    slashStd.unmarshalParams (textEnvelope ctText) =
      some { CT := ctText, IV := hexEncode sampleIV, S := hexEncode sampleSalt } :=
  sampleUnmarshal_fields
    { CT := ctText, IV := hexEncode sampleIV, S := hexEncode sampleSalt }

/-- Witness for C17 on the instance whose base64 texts may hold slashes: a
text with two slashes, escaped and not. -/
theorem DecodeURL_escaped_slashes_witness :
    escapeSlashes slashText = ascii "01\\/02\\/" ++ hexEncode (List.replicate 18 7) ∧
    slashStd.base64Decode slashText = some ([1, 2] ++ List.replicate 18 7) ∧
    DecodeURL slashStd (textEnvelope (escapeSlashes slashText)) =
      DecodeURL slashStd (textEnvelope slashText) :=
  ⟨by decide, by decide,
    (DecodeURL_escaped_slashes slashStd slash_alphabet slashText
      ([1, 2] ++ List.replicate 18 7) (hexEncode sampleIV) (hexEncode sampleSalt)
      (textEnvelope (escapeSlashes slashText)) (textEnvelope slashText)
      (by decide) (textEnvelope_unmarshal _) (textEnvelope_unmarshal _)).1⟩

/-- The channel returns what was put in: `DecryptAES` on the text of
`EncryptAES`, for any salt. -/
theorem channel_round_trip (std : Primitives) (hAes : AesInverts std)
    (hB64 : Base64Inverts std) (hEnv : EnvelopeInverts std) (p pw salt : Bytes) :
    ∃ text : Bytes, EncryptAES std (some salt) p pw = .ok text ∧
      DecryptAES std text pw = .ok p := by
  have hkey := specKey_length std pw salt
  have hivl := specBlock_length std pw salt 2
  have hcipher : NewCipher (specBlock std pw salt 0 ++ specBlock std pw salt 1) =
      .ok (specBlock std pw salt 0 ++ specBlock std pw salt 1) := by
    unfold NewCipher
    rw [if_pos (Or.inr (Or.inr hkey))]
  have hcbc : NewCBC (specBlock std pw salt 2) = .ok (specBlock std pw salt 2) := by
    unfold NewCBC
    rw [if_neg (by simp [hivl])]
  obtain ⟨padded, hpad, hunpad, -⟩ := padded_unpad_both p
  have hplen : padded.length % 16 = 0 := padded_length_mod p padded hpad
  have hdiv : padded.length = 16 * (padded.length / 16) := by omega
  obtain ⟨text, hmar, hunmar⟩ := hEnv
    (cbcEncryptBlocks std (specBlock std pw salt 0 ++ specBlock std pw salt 1)
      (padded.length / 16) (specBlock std pw salt 2) padded) salt
  have hclen := cbcEncryptBlocks_length std
    (specBlock std pw salt 0 ++ specBlock std pw salt 1) (padded.length / 16)
    (specBlock std pw salt 2) padded
  refine ⟨text, ?_, ?_⟩
  · simp only [EncryptAES, orErr_some, ok_bind, EVPBytesToKey_32_16, hcipher, hpad, hcbc,
      encryptBlocks, hplen, ne_eq, not_true_eq_false, if_false, hmar, pure_ok]
  · rw [DecryptAES_of_stages std text pw _ _ salt (specBlock std pw salt 2) hunmar (hB64 _)
      (hexDecode_hexEncode salt) (Or.inl ⟨rfl, rfl⟩) (by rw [hclen]; omega)]
    have hn : (cbcEncryptBlocks std (specBlock std pw salt 0 ++ specBlock std pw salt 1)
        (padded.length / 16) (specBlock std pw salt 2) padded).length / 16 =
          padded.length / 16 := by
      rw [hclen]
      omega
    rw [hn, cbcDecryptBlocks_cbcEncryptBlocks std hAes _ hkey _ _ _ hivl hdiv, hunpad]

/-- C18: the obfuscation channel round trip.  For every value `v` that
`json.Marshal` serialises, to `json`, and every 8-byte salt that the random
source returns, `StartTransition(v)` returns an envelope text on which
`GetHres` succeeds and returns the value that JSON-decoding `json` gives.  AES
block decryption is taken to invert encryption, base64 decoding to invert
encoding, `json.Unmarshal` to read back the envelope, and the JSON text of a
value to decode without error. -/
theorem GetHres_StartTransition (std : Primitives) (hAes : AesInverts std)
    (hB64 : Base64Inverts std) (hEnv : EnvelopeInverts std) (hVal : ValueDecodes std)
    (v : std.Value) (json salt : Bytes)
    (hv : std.marshalValue v = some json) (_hsalt : salt.length = 8) :
    ∃ (text : Bytes) (v2 : std.Value),
      StartTransition std (some salt) v = .ok text ∧
      std.unmarshalValue json = some v2 ∧
      GetHres std text = .ok v2 := by
  obtain ⟨text, henc, hdec⟩ := channel_round_trip std hAes hB64 hEnv json Assets salt
  obtain ⟨v2, hv2⟩ := hVal v json hv
  refine ⟨text, v2, ?_, hv2, ?_⟩
  · simp only [StartTransition, hv, orErr_some, ok_bind, henc]
  · unfold GetHres
    rw [hdec]
    simp only [hv2]

theorem sample_valueDecodes : ValueDecodes sampleStd := by
  intro v json _
  exact ⟨json, rfl⟩

/-- Witness for C18 on the small primitives, whose values are their own JSON
text: the value `secret` and the salt `sampleSalt`. -/
theorem GetHres_StartTransition_witness :
    sampleSalt.length = 8 ∧
    ∃ (text : Bytes) (v2 : sampleStd.Value),
      StartTransition sampleStd (some sampleSalt) (ascii "secret") = .ok text ∧
      sampleStd.unmarshalValue (ascii "secret") = some v2 ∧
      GetHres sampleStd text = .ok v2 :=
  ⟨rfl, GetHres_StartTransition sampleStd sample_aesInverts sample_base64Inverts
    sample_envelopeInverts sample_valueDecodes (ascii "secret") (ascii "secret") sampleSalt
    rfl rfl⟩

end Cryptoutil

namespace Main

open Cryptoutil

/-! ## Claim on `formatSecondsToHMS` -/

theorem fmtDigits_small (u : Nat) (h : u < 10) : fmtDigits u = [byte ((48 + u : Nat) : Int)] := by
  rw [fmtDigits, dif_neg (by omega)]

theorem fmtDigits_step (u : Nat) (h : 10 ≤ u) :
    fmtDigits u = fmtDigits (u / 10) ++ [byte ((48 + u % 10 : Nat) : Int)] := by
  rw [fmtDigits, dif_pos h]

theorem digit_val (d : Nat) (h : d < 10) : (byte ((48 + d : Nat) : Int)).val = 48 + d := by
  simp only [byte]
  omega

theorem decimalValue_snoc (a : Bytes) (d : Nat) (h : d < 10) :
    decimalValue (a ++ [byte ((48 + d : Nat) : Int)]) = 10 * decimalValue a + d := by
  unfold decimalValue
  rw [List.foldl_append]
  simp only [List.foldl_cons, List.foldl_nil, digit_val d h]
  omega

/-- The digits that `fmt` writes for `u`: decimal digits, no leading zero
unless `u` is zero, with value `u`. -/
theorem fmtDigits_spec : ∀ (n u : Nat), u ≤ n →
    fmtDigits u ≠ [] ∧ (∀ c ∈ fmtDigits u, 48 ≤ c.val ∧ c.val ≤ 57) ∧
    decimalValue (fmtDigits u) = u ∧
    (1 ≤ u → (fmtDigits u).head? ≠ some (0x30 : Byte)) ∧
    (10 ≤ u → 2 ≤ (fmtDigits u).length) := by
  intro n
  induction n with
  | zero =>
    intro u hu
    have h0 : u = 0 := by omega
    subst h0
    rw [fmtDigits_small 0 (by omega)]
    refine ⟨by simp, ?_, by decide, by omega, by omega⟩
    intro c hc
    simp only [List.mem_singleton] at hc
    subst hc
    decide
  | succ n ih =>
    intro u hu
    by_cases hsmall : u < 10
    · rw [fmtDigits_small u hsmall]
      refine ⟨by simp, ?_, ?_, ?_, by omega⟩
      · intro c hc
        simp only [List.mem_singleton] at hc
        subst hc
        rw [digit_val u hsmall]
        omega
      · have := decimalValue_snoc [] u hsmall
        simpa [decimalValue] using this
      · intro h1 hhead
        simp only [List.head?_cons, Option.some.injEq] at hhead
        have := congrArg Fin.val hhead
        rw [digit_val u hsmall] at this
        have h48 : ((0x30 : Byte)).val = 48 := rfl
        omega
    · obtain ⟨hne, hdig, hval, hhead, -⟩ := ih (u / 10) (by omega)
      have hlast : u % 10 < 10 := Nat.mod_lt _ (by decide)
      rw [fmtDigits_step u (by omega)]
      refine ⟨by simp, ?_, ?_, ?_, ?_⟩
      · intro c hc
        rcases List.mem_append.mp hc with h | h
        · exact hdig c h
        · simp only [List.mem_singleton] at h
          subst h
          rw [digit_val _ hlast]
          omega
      · rw [decimalValue_snoc _ _ hlast, hval]
        omega
      · intro _
        rw [List.head?_append_of_ne_nil _ hne]
        exact hhead (by omega)
      · intro _
        have : 1 ≤ (fmtDigits (u / 10)).length := by
          cases hf : fmtDigits (u / 10) with
          | nil => exact absurd hf hne
          | cons a l => simp
        simp only [List.length_append, List.length_singleton]
        omega

/-- The verb `%02d` on a value below 100 that is not negative: two digits. -/
theorem fmt02d_two (m : Nat) (h : m < 100) :
    fmt02d (m : Int) = [byte ((48 + m / 10 : Nat) : Int), byte ((48 + m % 10 : Nat) : Int)] := by
  have hneg : ¬ ((m : Int) < 0) := by omega
  unfold fmt02d
  simp only [hneg, if_false, Int.natAbs_ofNat]
  by_cases hsmall : m < 10
  · rw [fmtDigits_small m hsmall]
    have h1 : m / 10 = 0 := by omega
    have h2 : m % 10 = m := by omega
    rw [h1, h2]
    rfl
  · rw [fmtDigits_step m (by omega), fmtDigits_small (m / 10) (by omega)]
    rfl

/-- The verb `%02d` on a value that is not negative: its decimal text, with
one zero in front when it has a single digit. -/
theorem fmt02d_nat (h : Nat) :
    2 ≤ (fmt02d (h : Int)).length ∧ (∀ c ∈ fmt02d (h : Int), 48 ≤ c.val ∧ c.val ≤ 57) ∧
    decimalValue (fmt02d (h : Int)) = h ∧
    (2 < (fmt02d (h : Int)).length → (fmt02d (h : Int)).head? ≠ some (0x30 : Byte)) := by
  by_cases hsmall : h < 10
  · rw [fmt02d_two h (by omega)]
    have h1 : h / 10 = 0 := by omega
    have h2 : h % 10 = h := by omega
    rw [h1, h2]
    refine ⟨by simp, ?_, ?_, by simp⟩
    · intro c hc
      simp only [List.mem_cons, List.mem_singleton, List.not_mem_nil, or_false] at hc
      rcases hc with hc | hc
      · subst hc
        decide
      · subst hc
        rw [digit_val h hsmall]
        omega
    · have := decimalValue_snoc [byte ((48 + 0 : Nat) : Int)] h hsmall
      rw [List.singleton_append] at this
      have hz : decimalValue [byte ((48 + 0 : Nat) : Int)] = 0 := by decide
      rw [this, hz]
      omega
  · obtain ⟨-, hdig, hval, hhead, hlen⟩ := fmtDigits_spec h h (le_refl _)
    have hneg : ¬ ((h : Int) < 0) := by omega
    have hfmt : fmt02d (h : Int) = fmtDigits h := by
      unfold fmt02d
      simp only [hneg, if_false, Int.natAbs_ofNat]
      have : 2 - (fmtDigits h).length = 0 := by
        have := hlen (by omega)
        omega
      rw [this]
      rfl
    rw [hfmt]
    exact ⟨hlen (by omega), hdig, hval, fun _ => hhead (by omega)⟩

/-- The result on a duration that is not negative. -/
theorem formatSecondsToHMS_nat (T : Nat) :
    formatSecondsToHMS (T : Int) =
      fmt02d ((T / 3600 : Nat) : Int) ++
        [0x3a, byte ((48 + T % 3600 / 60 / 10 : Nat) : Int),
          byte ((48 + T % 3600 / 60 % 10 : Nat) : Int), 0x3a,
          byte ((48 + T % 60 / 10 : Nat) : Int), byte ((48 + T % 60 % 10 : Nat) : Int)] := by
  have ht : (if (T : Int) < 0 then 0 else (T : Int)) = (T : Int) := by
    rw [if_neg (by omega)]
  have hH : Int.tdiv (T : Int) 3600 = ((T / 3600 : Nat) : Int) := by
    rw [Int.tdiv_eq_ediv (by omega) (by omega)]
    omega
  have hmod : Int.tmod (T : Int) 3600 = ((T % 3600 : Nat) : Int) := by
    rw [Int.tmod_eq_emod (by omega) (by omega)]
    omega
  have hM : Int.tdiv ((T % 3600 : Nat) : Int) 60 = ((T % 3600 / 60 : Nat) : Int) := by
    rw [Int.tdiv_eq_ediv (by omega) (by omega)]
    omega
  have hS : Int.tmod (T : Int) 60 = ((T % 60 : Nat) : Int) := by
    rw [Int.tmod_eq_emod (by omega) (by omega)]
    omega
  have hcolon : ascii ":" = [0x3a] := by decide
  unfold formatSecondsToHMS
  simp only [ht, hH, hmod, hM, hS, hcolon]
  rw [fmt02d_two (T % 3600 / 60) (by omega), fmt02d_two (T % 60) (by omega)]
  simp

/-- C21: `formatSecondsToHMS` splits a duration exactly.  For every 64-bit
`totalSeconds`, with `t = max(totalSeconds, 0)`, `H = t / 3600`,
`M = (t mod 3600) / 60` and `S = t mod 60`: `M < 60`, `S < 60`,
`H*3600 + M*60 + S = t`, and the result is the hours text, a colon, the two
digits of `M`, a colon and the two digits of `S`; the hours text is the
decimal text of `H`, of at least two digits, with a zero in front only when
`H` has one digit.  Every negative input gives `00:00:00`. -/
theorem formatSecondsToHMS_split (totalSeconds : Int)
    (hlo : -(2 : Int) ^ 63 ≤ totalSeconds) (hhi : totalSeconds < (2 : Int) ^ 63) :
    (∃ (H M S : Nat) (hh : Bytes),
      (H : Int) = max totalSeconds 0 / 3600 ∧
      (M : Int) = max totalSeconds 0 % 3600 / 60 ∧
      (S : Int) = max totalSeconds 0 % 60 ∧
      M < 60 ∧ S < 60 ∧ ((H * 3600 + M * 60 + S : Nat) : Int) = max totalSeconds 0 ∧
      formatSecondsToHMS totalSeconds =
        hh ++ [0x3a, byte ((48 + M / 10 : Nat) : Int), byte ((48 + M % 10 : Nat) : Int), 0x3a,
          byte ((48 + S / 10 : Nat) : Int), byte ((48 + S % 10 : Nat) : Int)] ∧
      2 ≤ hh.length ∧ (∀ c ∈ hh, 48 ≤ c.val ∧ c.val ≤ 57) ∧ decimalValue hh = H ∧
      (2 < hh.length → hh.head? ≠ some (0x30 : Byte))) ∧
    (totalSeconds < 0 → formatSecondsToHMS totalSeconds = ascii "00:00:00") := by
  have hsame : formatSecondsToHMS totalSeconds = formatSecondsToHMS (max totalSeconds 0) := by
    unfold formatSecondsToHMS
    by_cases hneg : totalSeconds < 0
    · have hmax : max totalSeconds 0 = 0 := by omega
      rw [hmax]
      simp only [hneg, if_true]
      rfl
    · have hmax : max totalSeconds 0 = totalSeconds := by omega
      rw [hmax]
  obtain ⟨T, hT⟩ := Int.eq_ofNat_of_zero_le (by omega : 0 ≤ max totalSeconds 0)
  obtain ⟨h1, h2, h3, h4⟩ := fmt02d_nat (T / 3600)
  constructor
  · refine ⟨T / 3600, T % 3600 / 60, T % 60, fmt02d ((T / 3600 : Nat) : Int),
      by omega, by omega, by omega, by omega, by omega, by omega, ?_, h1, h2, h3, h4⟩
    rw [hsame, hT]
    exact formatSecondsToHMS_nat T
  · intro hneg
    have hmax : max totalSeconds 0 = ((0 : Nat) : Int) := by omega
    rw [hsame, hmax, formatSecondsToHMS_nat 0, fmt02d_two 0 (by decide)]
    decide

/-- Witness for C21 at 3725 seconds, with the negative input -5. -/
theorem formatSecondsToHMS_split_witness :
    -(2 : Int) ^ 63 ≤ 3725 ∧ (3725 : Int) < (2 : Int) ^ 63 ∧
    formatSecondsToHMS (-5) = ascii "00:00:00" ∧
    ∃ (H M S : Nat) (hh : Bytes),
      (H : Int) = max (3725 : Int) 0 / 3600 ∧
      (M : Int) = max (3725 : Int) 0 % 3600 / 60 ∧
      (S : Int) = max (3725 : Int) 0 % 60 ∧
      M < 60 ∧ S < 60 ∧ ((H * 3600 + M * 60 + S : Nat) : Int) = max (3725 : Int) 0 ∧
      formatSecondsToHMS 3725 =
        hh ++ [0x3a, byte ((48 + M / 10 : Nat) : Int), byte ((48 + M % 10 : Nat) : Int), 0x3a,
          byte ((48 + S / 10 : Nat) : Int), byte ((48 + S % 10 : Nat) : Int)] ∧
      2 ≤ hh.length ∧ (∀ c ∈ hh, 48 ≤ c.val ∧ c.val ≤ 57) ∧ decimalValue hh = H ∧
      (2 < hh.length → hh.head? ≠ some (0x30 : Byte)) :=
  ⟨by decide, by decide,
    (formatSecondsToHMS_split (-5) (by decide) (by decide)).2 (by decide),
    (formatSecondsToHMS_split 3725 (by decide) (by decide)).1⟩

end Main
